import Mathlib

/-!
# zncfilter: a message filter module for the ZNC bouncer (`myfilter.cpp`)

A shallow embedding of `struct Entry` and `class CMyFilter`, together with the
ZNC / libc routines the module calls (`CString::Token`, `CString::Split`,
`CString::Join`, `CString::WildCmp`, `CString::ToULong`, `CString(unsigned long)`,
`CTable::AddColumn`, `CTable::AddRow`, `CTable::SetCell`).

Conventions of the embedding
* a `CString` (a `std::string`) is the list of its `char`s; a `Char` stands for one C `char`;
* a routine that walks a `const char*` obtained from `c_str()` sees the characters before
  the first NUL only: this is `c_str` below;
* `unsigned long` is 64 bits wide (LP64); the arithmetic on it is written with an
  explicit `% 2 ^ 64`;
* the module object is the pair of its `entries` vector and the value stored under the
  key `"Filters"` of the module's name/value store.
-/

namespace ZncFilter

/-! ## Strings -/

/-- A ZNC `CString`: the characters of a `std::string`, in order. -/
abbrev CString := List Char

/-- Number of values of an `unsigned long` (64-bit). -/
def ULONG_RANGE : Nat := 2 ^ 64

/-- Largest `unsigned long`. -/
def ULONG_MAX : Nat := 2 ^ 64 - 1

/-- What a reader of `s.c_str()` sees: the characters before the first NUL. -/
def c_str (s : CString) : List Char := s.takeWhile (fun c => c != '\x00')

/-- C `tolower` in the "C" locale: `A` .. `Z` go to `a` .. `z`, every other char is kept. -/
def tolower (c : Char) : Char := c.toLower

/-- `CString::AsLower`: `tolower` applied to every char of a copy. -/
def AsLower (s : CString) : CString := s.map tolower

/-! ## `CString::WildCmp` -/

/-- First loop of `CString::WildCmp`:
`while ((*CString) && (*wild != '*'))`, returning `false` (here `none`) on a mismatch,
otherwise stepping both pointers. The result `some (wild, CString)` is the pair of
pointers at loop exit. Reading `*wild` at the end of the pattern yields NUL, which is
neither the (non-NUL) subject char nor `?`. -/
def wildHead : List Char → List Char → Option (List Char × List Char)
  | w, [] => some (w, [])
  | [], _ :: _ => none
  | p :: w, c :: s =>
    if p = '*' then some (p :: w, c :: s)
    else if p ≠ c ∧ p ≠ '?' then none
    else wildHead w s

/-- Third loop of `CString::WildCmp` and its return value:
`while (*wild == '*') wild++; return (*wild == 0);`. -/
def wildTail : List Char → Bool
  | [] => true
  | p :: w => if p = '*' then wildTail w else false

/-- Second loop of `CString::WildCmp`, `while (*CString) { ... }`, followed by the third.
The arguments are the number of iterations still allowed, `wild`, `CString`, and the
pair `(mp, cp)`, which is `none` while both are `nullptr`. One iteration:
* `*wild == '*'`: `if (!*++wild) return true; mp = wild; cp = CString + 1;`
* `*wild == *CString || *wild == '?'`: `wild++; CString++;`
* otherwise: `wild = mp; CString = cp++;`
The result is `none` when the iteration bound is hit or a null `mp` would be read. -/
def wildLoop : Nat → List Char → List Char → Option (List Char × List Char) → Option Bool
  | 0, _, _, _ => none
  | _ + 1, w, [], _ => some (wildTail w)
  | n + 1, [], _ :: _, bt =>
    match bt with
    | none => none
    | some (mp, cp) => wildLoop n mp cp (some (mp, cp.tail))
  | n + 1, p :: w, c :: s, bt =>
    if p = '*' then
      if w = [] then some true else wildLoop n w (c :: s) (some (w, s))
    else if p = c ∨ p = '?' then wildLoop n w s bt
    else
      match bt with
      | none => none
      | some (mp, cp) => wildLoop n mp cp (some (mp, cp.tail))

/-- Number of iterations that always suffices for the second loop of `WildCmp` on a
pattern of length `w` and a subject of length `s`. -/
def wildFuel (w s : Nat) : Nat := (s + 1) * (w + s + 4) + w + s + 1

/-- The static `CString::WildCmp(sWild, sString, CaseInsensitive)`: both strings are
lowered with `AsLower`, then compared through their `c_str()`.
`none` stands for a run that does not return a value. -/
def WildCmpRun (sWild sString : CString) : Option Bool :=
  let wild := c_str (AsLower sWild)
  let str := c_str (AsLower sString)
  match wildHead wild str with
  | none => some false
  | some (w, s) => wildLoop (wildFuel wild.length str.length) w s none

/-- The member call `sString.WildCmp(sWild, CaseSensitivity::CaseInsensitive)`. -/
def WildCmp (sString sWild : CString) : Bool := WildCmpRun sWild sString == some true

/-! ## `CString::Token`, `CString::Split`, `CString::Join` -/

/-- The loop of `CString::Token` that finds the start of token `uPos`, for the
separator `" "` and `bAllowEmpty = false`: each round steps over chars up to the next
separator, then over the whole run of separators, and counts one token down; it stops
at the end of the string. -/
def tokenStart : Nat → List Char → List Char
  | 0, s => s
  | n + 1, s =>
    match s.dropWhile (fun c => c != ' ') with
    | [] => []
    | r :: rest => tokenStart n ((r :: rest).dropWhile (fun c => c == ' '))

/-- The call `s.Token(uPos, bRest)` of ZNC (separator `" "`, `bAllowEmpty = false`):
leading separators are skipped, the start of token `uPos` is located, and either the
rest of the string (`bRest`) or the chars up to the next separator are returned; the
empty string when the string ends first. -/
def Token (uPos : Nat) (bRest : Bool) (s : CString) : CString :=
  let start := tokenStart uPos (s.dropWhile (fun c => c == ' '))
  if bRest then start else start.takeWhile (fun c => c != ' ')

/-- Main loop of `CString::Split` for the delimiter `"\n"` with the defaults of the call
`Split("\n", lines)` (`bAllowEmpty = true`, no quoting, no trimming): `p` walks the
`c_str()`, `sTmp` collects the current piece; a delimiter pushes `sTmp` (empty or not),
and after the loop a non-empty `sTmp` is pushed. -/
def splitLoop : List Char → CString → List CString
  | [], sTmp => if sTmp = [] then [] else [sTmp]
  | c :: p, sTmp =>
    if c = '\n' then sTmp :: splitLoop p [] else splitLoop p (sTmp ++ [c])

/-- The call `s.Split("\n", lines)`: the value left in `lines`. -/
def Split (s : CString) : List CString :=
  if s = [] then [] else splitLoop (c_str s) []

/-- The call `sep.Join(begin, end)` of ZNC: the elements written in order with `sep`
between consecutive ones; the empty string for an empty range. -/
def Join (sep : CString) : List CString → CString
  | [] => []
  | [x] => x
  | x :: y :: rest => x ++ sep ++ Join sep (y :: rest)

/-! ## Numbers -/

/-- The conversion `CString(unsigned long)`: the decimal digits written by `operator<<`. -/
def ofULong (n : Nat) : CString := Nat.toDigits 10 n

/-- C `isspace` in the "C" locale. -/
def isspace (c : Char) : Bool :=
  c == ' ' || c == '\t' || c == '\n' || c == '\x0b' || c == '\x0c' || c == '\r'

/-- C `isdigit`. -/
def isdigit (c : Char) : Bool := decide ('0' ≤ c) && decide (c ≤ '9')

/-- Value of a decimal digit char. -/
def digitValue (c : Char) : Nat := c.toNat - '0'.toNat

/-- Value of a run of decimal digits, most significant first. -/
def decimalValue (ds : List Char) : Nat := ds.foldl (fun acc d => acc * 10 + digitValue d) 0

/-- C `strtoul(s, nullptr, 10)` on a 64-bit `unsigned long`: white space is skipped, one
optional sign is read, then the longest run of decimal digits; the value saturates at
`ULONG_MAX`, and is negated modulo `2 ^ 64` after a minus sign. No digits give 0. -/
def strtoul (s : List Char) : Nat :=
  let s1 := s.dropWhile isspace
  let neg := s1.head? == some '-'
  let s2 := if s1.head? == some '-' || s1.head? == some '+' then s1.tail else s1
  let v := decimalValue (s2.takeWhile isdigit)
  if ULONG_MAX < v then ULONG_MAX
  else if neg then (ULONG_RANGE - v) % ULONG_RANGE
  else v

/-- The call `s.ToULong()` of ZNC: `strtoul(c_str(), nullptr, 10)`. -/
def ToULong (s : CString) : Nat := strtoul (c_str s)

/-! ## `struct Entry` -/

/-- One filter: `struct Entry`. `hits` is an `unsigned long`. -/
structure Entry where
  chanPattern : CString
  nickPattern : CString
  textPattern : CString
  hits : Nat
deriving DecidableEq

/-- The method `Entry::serialize`. -/
def Entry.serialize (e : Entry) : CString :=
  Join [' '] [e.chanPattern, e.nickPattern, ofULong e.hits, e.textPattern]

/-- The static method `Entry::deserialize`; the braced list is
`{chan, nick, text, hits}`. -/
def Entry.deserialize (line : CString) : Entry :=
  { chanPattern := Token 0 false line
    nickPattern := Token 1 false line
    textPattern := Token 3 true line
    hits := ToULong (Token 2 false line) }

/-! ## `class CMyFilter` -/

/-- The verdicts of a module hook used here: `CModule::EModRet`. -/
inductive EModRet where
  | CONTINUE
  | HALT
deriving DecidableEq

/-- The state of a `CMyFilter`: the `entries` vector and the value of the key
`"Filters"` in the name/value store (`none` when `HasNV("Filters")` is false). -/
structure CMyFilter where
  entries : List Entry
  filters : Option CString
deriving DecidableEq

/-- The method `CMyFilter::Save`. -/
def Save (m : CMyFilter) : CMyFilter :=
  { m with filters := some (Join ['\n'] (m.entries.map Entry.serialize)) }

/-- The method `CMyFilter::OnAddFilter`; the second component is the text given to
`PutModule`. `args` is the whole command line, command name included. The call
`args.QuoteSplit(result)` only fills a local that is never read. -/
def OnAddFilter (args : CString) (m : CMyFilter) : CMyFilter × CString :=
  let chan := Token 1 false args
  let nick := Token 2 false args
  let text := Token 3 true args
  let m1 := { m with entries := m.entries ++ [Entry.mk chan nick text 0] }
  (Save m1, "Added filter".toList)

/-- The method `CMyFilter::OnDelFilter`; the second component is the text given to
`PutModule`. `i` is `ToULong() - 1` computed on `unsigned long`, so 0 wraps to
`ULONG_MAX`; `Save` runs on both branches. -/
def OnDelFilter (args : CString) (m : CMyFilter) : CMyFilter × CString :=
  let i := (ToULong (Token 1 false args) + ULONG_RANGE - 1) % ULONG_RANGE
  if i < m.entries.length then
    (Save { m with entries := m.entries.eraseIdx i }, "Filter removed.".toList)
  else
    (Save m, "Bad index.".toList)

/-- The condition of the `if` in `CMyFilter::OnChanTextMessage`: the three
case-insensitive `WildCmp` calls joined by `&&`. -/
def entryMatches (chan nick text : CString) (entry : Entry) : Bool :=
  WildCmp chan entry.chanPattern && WildCmp nick entry.nickPattern
    && WildCmp text entry.textPattern

/-- The `for` loop of `CMyFilter::OnChanTextMessage` over `entries`: the verdict and the
vector after the loop. `entry.hits++` is an increment of an `unsigned long`. -/
def matchLoop (chan nick text : CString) : List Entry → EModRet × List Entry
  | [] => (EModRet.CONTINUE, [])
  | entry :: rest =>
    if entryMatches chan nick text entry then
      (EModRet.HALT, { entry with hits := (entry.hits + 1) % ULONG_RANGE } :: rest)
    else
      ((matchLoop chan nick text rest).1, entry :: (matchLoop chan nick text rest).2)

/-- The method `CMyFilter::OnChanTextMessage` on a message with channel name `chan`,
sender nick `nick` and text `text`. The method does not call `Save`. -/
def OnChanTextMessage (chan nick text : CString) (m : CMyFilter) : EModRet × CMyFilter :=
  ((matchLoop chan nick text m.entries).1,
   { m with entries := (matchLoop chan nick text m.entries).2 })

/-- The method `CMyFilter::OnChanNoticeMessage`. -/
def OnChanNoticeMessage (chan nick text : CString) (m : CMyFilter) : EModRet × CMyFilter :=
  OnChanTextMessage chan nick text m

/-- The method `CMyFilter::OnLoad`: the entries of the stored lines are pushed onto
`entries`. -/
def OnLoad (m : CMyFilter) : CMyFilter :=
  match m.filters with
  | none => m
  | some blob => { m with entries := m.entries ++ (Split blob).map Entry.deserialize }

/-! ## Reference readings used in the statements -/

/-- A list of pieces without its last piece when that one is empty. -/
def dropEmptyLast (segs : List CString) : List CString :=
  if segs.getLast? = some [] then segs.dropLast else segs

/-- The lines of a stored blob: the pieces between the newlines of what `c_str()` shows
of it, the piece after the last newline left out when it is empty. -/
def blobLines (blob : CString) : List CString :=
  dropEmptyLast ((c_str blob).splitOn '\n')

/-- The space-separated tokens of a line: its maximal runs of chars other than a space,
in order (the non-empty pieces between spaces). -/
def spaceTokens (line : CString) : List CString :=
  (line.splitOn ' ').filter (fun t => t != [])

/-- The entries whose stored line reads back as the same entry: channel and nick patterns
are non-empty and hold no space, newline or NUL; the text pattern holds no newline or
NUL and does not start with a space; the hit count is an `unsigned long`. -/
def Entry.storable (e : Entry) : Prop :=
  e.chanPattern ≠ [] ∧ e.nickPattern ≠ []
  ∧ (∀ c ∈ e.chanPattern, c ≠ ' ' ∧ c ≠ '\n' ∧ c ≠ '\x00')
  ∧ (∀ c ∈ e.nickPattern, c ≠ ' ' ∧ c ≠ '\n' ∧ c ≠ '\x00')
  ∧ (∀ c ∈ e.textPattern, c ≠ '\n' ∧ c ≠ '\x00')
  ∧ e.textPattern.head? ≠ some ' '
  ∧ e.hits < 2 ^ 64

instance (e : Entry) : Decidable e.storable := by
  unfold Entry.storable
  infer_instance

/-- What one pattern char may take from the subject: `*` any run of chars, `?` exactly one
char, any other char exactly one char equal to it up to letter case. -/
def pieceFits (p : Char) (piece : List Char) : Prop :=
  if p = '*' then True
  else if p = '?' then ∃ c, piece = [c]
  else ∃ c, piece = [c] ∧ tolower c = tolower p

/-- The whole subject can be split into consecutive pieces, one for each pattern char in
order, each piece fitting its pattern char. -/
def WildMatches (pattern subject : List Char) : Prop :=
  ∃ pieces : List (List Char), List.Forall₂ pieceFits pattern pieces ∧ pieces.flatten = subject

/-- A non-star pattern char of a lowered pattern against one char of a lowered subject. -/
def charFits (p c : Char) : Prop := p = c ∨ p = '?'

/-- Wildcard matching of a whole (lowered) subject by recursion on the (lowered) pattern:
`*` leaves any suffix of the subject to the rest of the pattern, any other char takes
one char that fits. -/
def Glob : List Char → List Char → Prop
  | [], s => s = []
  | p :: w, s =>
    if p = '*' then ∃ t, t <:+ s ∧ Glob w t
    else ∃ c s', s = c :: s' ∧ charFits p c ∧ Glob w s'

/-! ## `CTable`, `OnListFilters`, `OnModuleUnloading` -/

/-- The call `a.Equals(b)` of ZNC with its default `CaseInsensitive`: `strcasecmp` of the
two `c_str()`. -/
def Equals (a b : CString) : Bool := c_str (AsLower a) == c_str (AsLower b)

/-- A ZNC `CTable` as far as its content goes: the column headers and the rows, each row
holding one cell for every column. -/
structure CTable where
  headers : List CString
  rows : List (List CString)
deriving DecidableEq

/-- The method `CTable::AddColumn`: a name equal to an existing header (up to case) is
refused, any other name is pushed onto the headers. -/
def CTable.AddColumn (t : CTable) (sName : CString) : CTable :=
  if t.headers.any (fun h => Equals h sName) then t
  else { t with headers := t.headers ++ [sName] }

/-- The method `CTable::AddRow`: without headers nothing is added, otherwise a row of
empty cells, one for each column. -/
def CTable.AddRow (t : CTable) : CTable :=
  if t.headers = [] then t
  else { t with rows := t.rows ++ [List.replicate t.headers.length []] }

/-- The method `CTable::SetCell(sColumn, sValue)` with the default row index: the cell of
the last row in the column named `sColumn`; nothing changes without a row or without
such a column. -/
def CTable.SetCell (t : CTable) (sColumn sValue : CString) : CTable :=
  match t.rows.getLast? with
  | none => t
  | some row =>
    if t.headers.indexOf sColumn < t.headers.length then
      { t with rows := t.rows.dropLast ++ [row.set (t.headers.indexOf sColumn) sValue] }
    else t

/-- What a command hands to `PutModule`: a line of text or a table. -/
inductive Reply where
  | text (s : CString)
  | table (t : CTable)
deriving DecidableEq

/-- The body of the `for` loop of `CMyFilter::OnListFilters` for one entry. -/
def listRow (table : CTable) (entry : Entry) : CTable :=
  (((table.AddRow.SetCell "Channel".toList entry.chanPattern).SetCell
      "Nickname".toList entry.nickPattern).SetCell
      "Hits".toList (ofULong entry.hits)).SetCell "Message".toList entry.textPattern

/-- The table built in the `else` branch of `CMyFilter::OnListFilters`. -/
def listTable (entries : List Entry) : CTable :=
  let table := ((((CTable.mk [] []).AddColumn "Channel".toList).AddColumn
    "Nickname".toList).AddColumn "Hits".toList).AddColumn "Message".toList
  entries.foldl listRow table

/-- The method `CMyFilter::OnListFilters`; the second component is what is given to
`PutModule`. `Save` runs on both branches. -/
def OnListFilters (m : CMyFilter) : CMyFilter × Reply :=
  if m.entries = [] then (Save m, Reply.text "No filters".toList)
  else (Save m, Reply.table (listTable m.entries))

/-- The method `CMyFilter::OnModuleUnloading`: the state after `Save`, the value left in
`bSuccess`, and the verdict returned. -/
def OnModuleUnloading (m : CMyFilter) : CMyFilter × Bool × EModRet :=
  (Save m, true, EModRet.CONTINUE)

/-! ## Further reference readings used in the statements -/

/-- The serialization of a vector of entries: what `Save` writes for it. -/
def savedBlob (entries : List Entry) : CString :=
  Join ['\n'] (entries.map Entry.serialize)

/-- Two chars that are equal or are the upper-case and lower-case form of one ASCII
letter (`A` .. `Z` are 65 .. 90, the lower-case forms are 32 higher). -/
def caseSwap (c d : Char) : Prop :=
  c = d ∨ (65 ≤ c.toNat ∧ c.toNat ≤ 90 ∧ d.toNat = c.toNat + 32)
    ∨ (65 ≤ d.toNat ∧ d.toNat ≤ 90 ∧ c.toNat = d.toNat + 32)

/-- Two strings that differ at most in the case of ASCII letters. -/
def caseVariant (s t : CString) : Prop := List.Forall₂ caseSwap s t

/-- Two entries with the same hit count whose patterns differ at most in the case of
ASCII letters. -/
def entryCaseVariant (e f : Entry) : Prop :=
  caseVariant e.chanPattern f.chanPattern ∧ caseVariant e.nickPattern f.nickPattern
  ∧ caseVariant e.textPattern f.textPattern ∧ e.hits = f.hits

/-- The vector after a run of `add` commands on the empty vector, one command line each;
`stored` is the value under "Filters" before the first command. -/
def addAll (lines : List CString) (stored : Option CString) : CMyFilter :=
  lines.foldl (fun m line => (OnAddFilter line m).1) ⟨[], stored⟩

/-! # Theorems -/

/-! ## Message evaluation -/

theorem matchLoop_no_match (chan nick text : CString) (es : List Entry)
    (h : ∀ e ∈ es, entryMatches chan nick text e = false) :
    matchLoop chan nick text es = (EModRet.CONTINUE, es) := by
  induction es with
  | nil => rfl
  | cons e es ih =>
    have he : entryMatches chan nick text e = false := h e (List.mem_cons_self _ _)
    have ih2 := ih (fun x hx => h x (List.mem_cons_of_mem _ hx))
    simp [matchLoop, he, ih2]

theorem matchLoop_first_match (chan nick text : CString) (pre : List Entry) (e : Entry)
    (post : List Entry) (hpre : ∀ x ∈ pre, entryMatches chan nick text x = false)
    (he : entryMatches chan nick text e = true) :
    matchLoop chan nick text (pre ++ e :: post)
      = (EModRet.HALT, pre ++ { e with hits := (e.hits + 1) % ULONG_RANGE } :: post) := by
  induction pre with
  | nil => simp [matchLoop, he]
  | cons x pre ih =>
    have hx : entryMatches chan nick text x = false := hpre x (List.mem_cons_self _ _)
    have ih2 := ih (fun y hy => hpre y (List.mem_cons_of_mem _ hy))
    simp [matchLoop, hx, ih2]

theorem exists_first_match (chan nick text : CString) (es : List Entry)
    (h : ∃ e ∈ es, entryMatches chan nick text e = true) :
    ∃ pre e post, es = pre ++ e :: post
      ∧ (∀ x ∈ pre, entryMatches chan nick text x = false)
      ∧ entryMatches chan nick text e = true := by
  induction es with
  | nil => obtain ⟨e, he, _⟩ := h; cases he
  | cons x es ih =>
    by_cases hx : entryMatches chan nick text x = true
    · exact ⟨[], x, es, rfl, by simp, hx⟩
    · have hx2 : entryMatches chan nick text x = false := by simpa using hx
      obtain ⟨e, he, hm⟩ := h
      rcases List.mem_cons.mp he with rfl | he2
      · exact absurd hm hx
      · obtain ⟨pre, e2, post, hes, hpre, he2m⟩ := ih ⟨e, he2, hm⟩
        refine ⟨x :: pre, e2, post, by simp [hes], ?_, he2m⟩
        intro y hy
        rcases List.mem_cons.mp hy with rfl | hy2
        · exact hx2
        · exact hpre y hy2

/-- C1 (amended). When some entry matches the message, `OnChanTextMessage` returns `HALT`
and the vector is the old one except that the first matching entry has its hit count
incremented as an `unsigned long`: by one modulo `2 ^ 64`, which is `hits + 1` unless
the count was `ULONG_MAX`. Entries before and after it, and the stored value, are kept. -/
theorem OnChanTextMessage_first_match (chan nick text : CString) (m : CMyFilter)
    (h : ∃ e ∈ m.entries, entryMatches chan nick text e = true) :
    ∃ pre e post, m.entries = pre ++ e :: post
      ∧ (∀ x ∈ pre, entryMatches chan nick text x = false)
      ∧ entryMatches chan nick text e = true
      ∧ OnChanTextMessage chan nick text m
          = (EModRet.HALT,
             { m with entries := pre ++ { e with hits := (e.hits + 1) % 2 ^ 64 } :: post })
      ∧ (OnChanTextMessage chan nick text m).2.entries.length = m.entries.length
      ∧ (e.hits < ULONG_MAX → (e.hits + 1) % 2 ^ 64 = e.hits + 1) := by
  obtain ⟨pre, e, post, hes, hpre, he⟩ := exists_first_match chan nick text m.entries h
  refine ⟨pre, e, post, hes, hpre, he, ?_, ?_, ?_⟩
  · simp only [OnChanTextMessage, hes, matchLoop_first_match chan nick text pre e post hpre he,
      ULONG_RANGE]
  · simp only [OnChanTextMessage, hes, matchLoop_first_match chan nick text pre e post hpre he]
    simp
  · intro hlt
    have : e.hits + 1 < 2 ^ 64 := by
      have : ULONG_MAX = 2 ^ 64 - 1 := rfl
      omega
    exact Nat.mod_eq_of_lt this

/-- C1, witness: the scenario list `[("#chan", "*", "*spam*")]` and the message
`("#chan", "bob", "buy spam now")`. -/
theorem OnChanTextMessage_first_match_witness :
    (∃ e ∈ (CMyFilter.mk [⟨"#chan".toList, "*".toList, "*spam*".toList, 0⟩] none).entries,
        entryMatches "#chan".toList "bob".toList "buy spam now".toList e = true)
    ∧ ∃ pre e post,
        (CMyFilter.mk [⟨"#chan".toList, "*".toList, "*spam*".toList, 0⟩] none).entries
          = pre ++ e :: post
      ∧ (∀ x ∈ pre, entryMatches "#chan".toList "bob".toList "buy spam now".toList x = false)
      ∧ entryMatches "#chan".toList "bob".toList "buy spam now".toList e = true
      ∧ OnChanTextMessage "#chan".toList "bob".toList "buy spam now".toList
            (CMyFilter.mk [⟨"#chan".toList, "*".toList, "*spam*".toList, 0⟩] none)
          = (EModRet.HALT,
             { (CMyFilter.mk [⟨"#chan".toList, "*".toList, "*spam*".toList, 0⟩] none) with
               entries := pre ++ { e with hits := (e.hits + 1) % 2 ^ 64 } :: post })
      ∧ (OnChanTextMessage "#chan".toList "bob".toList "buy spam now".toList
            (CMyFilter.mk [⟨"#chan".toList, "*".toList, "*spam*".toList, 0⟩] none)).2.entries.length
          = (CMyFilter.mk [⟨"#chan".toList, "*".toList, "*spam*".toList, 0⟩] none).entries.length
      ∧ (e.hits < ULONG_MAX → (e.hits + 1) % 2 ^ 64 = e.hits + 1) :=
  ⟨by decide, OnChanTextMessage_first_match _ _ _ _ (by decide)⟩

/-- C1, counterexample: the entry `("*", "*", "*")` with hit count `ULONG_MAX` matches the
message, and after `OnChanTextMessage` its hit count is 0, not the old count plus one. -/
theorem OnChanTextMessage_hits_wrap :
    entryMatches "#c".toList "bob".toList "hi".toList
        ⟨"*".toList, "*".toList, "*".toList, 18446744073709551615⟩ = true
    ∧ OnChanTextMessage "#c".toList "bob".toList "hi".toList
        ⟨[⟨"*".toList, "*".toList, "*".toList, 18446744073709551615⟩], none⟩
      = (EModRet.HALT, ⟨[⟨"*".toList, "*".toList, "*".toList, 0⟩], none⟩)
    ∧ ¬ ((OnChanTextMessage "#c".toList "bob".toList "hi".toList
          ⟨[⟨"*".toList, "*".toList, "*".toList, 18446744073709551615⟩], none⟩).2.entries.map
            Entry.hits = [18446744073709551615 + 1]) := by
  decide

/-- C2. `OnChanTextMessage` returns `HALT` exactly when some entry of the vector has all
three comparisons succeed (channel, nick and text), and `CONTINUE` exactly when no entry
has. -/
theorem OnChanTextMessage_verdict (chan nick text : CString) (m : CMyFilter) :
    ((OnChanTextMessage chan nick text m).1 = EModRet.HALT ↔
        ∃ e ∈ m.entries, WildCmp chan e.chanPattern = true
          ∧ WildCmp nick e.nickPattern = true ∧ WildCmp text e.textPattern = true)
    ∧ ((OnChanTextMessage chan nick text m).1 = EModRet.CONTINUE ↔
        ¬ ∃ e ∈ m.entries, WildCmp chan e.chanPattern = true
          ∧ WildCmp nick e.nickPattern = true ∧ WildCmp text e.textPattern = true) := by
  have key : (∃ e ∈ m.entries, WildCmp chan e.chanPattern = true
          ∧ WildCmp nick e.nickPattern = true ∧ WildCmp text e.textPattern = true)
      ↔ ∃ e ∈ m.entries, entryMatches chan nick text e = true := by
    simp [entryMatches, and_assoc]
  rw [key]
  by_cases h : ∃ e ∈ m.entries, entryMatches chan nick text e = true
  · obtain ⟨pre, e, post, hes, hpre, he⟩ := exists_first_match chan nick text m.entries h
    have hr : (OnChanTextMessage chan nick text m).1 = EModRet.HALT := by
      simp only [OnChanTextMessage, hes, matchLoop_first_match chan nick text pre e post hpre he]
    simp [hr, h]
  · have hall : ∀ e ∈ m.entries, entryMatches chan nick text e = false := by
      intro e he
      by_contra hc
      exact h ⟨e, he, by simpa using hc⟩
    have hr : (OnChanTextMessage chan nick text m).1 = EModRet.CONTINUE := by
      simp only [OnChanTextMessage, matchLoop_no_match chan nick text m.entries hall]
    simp [hr, h]

/-! ## Numbers: facts -/

theorem saturate_lt (v : Nat) (b : Bool) :
    (if ULONG_MAX < v then ULONG_MAX
      else if b = true then (ULONG_RANGE - v) % ULONG_RANGE else v) < 2 ^ 64 := by
  simp only [ULONG_MAX, ULONG_RANGE]
  split
  · norm_num
  · split
    · exact Nat.mod_lt _ (by norm_num)
    · omega

theorem strtoul_lt (s : List Char) : strtoul s < 2 ^ 64 := by
  unfold strtoul
  exact saturate_lt _ _

theorem ToULong_lt (s : CString) : ToULong s < 2 ^ 64 := strtoul_lt _

theorem digitChar_isdigit (k : Nat) (hk : k < 10) :
    isdigit (Nat.digitChar k) = true ∧ digitValue (Nat.digitChar k) = k := by
  interval_cases k <;> decide

theorem decimal_step (acc : Nat) (d : Char) (ds : List Char) :
    List.foldl (fun acc d => acc * 10 + digitValue d) acc (d :: ds)
      = List.foldl (fun acc d => acc * 10 + digitValue d) (acc * 10 + digitValue d) ds := rfl

theorem toDigitsCore_decimal (fuel : Nat) : ∀ (n : Nat) (ds : List Char), n < fuel →
    (∀ c ∈ ds, isdigit c = true) →
    (∀ c ∈ Nat.toDigitsCore 10 fuel n ds, isdigit c = true)
    ∧ List.foldl (fun acc d => acc * 10 + digitValue d) 0 (Nat.toDigitsCore 10 fuel n ds)
        = List.foldl (fun acc d => acc * 10 + digitValue d) n ds
    ∧ Nat.toDigitsCore 10 fuel n ds ≠ [] := by
  induction fuel with
  | zero => intro n ds h; omega
  | succ fuel ih =>
    intro n ds hn hds
    have hmod : n % 10 < 10 := Nat.mod_lt _ (by norm_num)
    obtain ⟨hd1, hd2⟩ := digitChar_isdigit (n % 10) hmod
    have hds2 : ∀ c ∈ Nat.digitChar (n % 10) :: ds, isdigit c = true := by
      intro c hc
      rcases List.mem_cons.mp hc with rfl | hc
      · exact hd1
      · exact hds c hc
    by_cases h0 : n / 10 = 0
    · have hlt : n < 10 := by omega
      have hn10 : n % 10 = n := Nat.mod_eq_of_lt hlt
      simp only [Nat.toDigitsCore, h0, if_true]
      refine ⟨hds2, ?_, by simp⟩
      rw [decimal_step, hd2, hn10]
      simp
    · have hlt : n / 10 < fuel := by omega
      obtain ⟨a, b, c⟩ := ih (n / 10) (Nat.digitChar (n % 10) :: ds) hlt hds2
      simp only [Nat.toDigitsCore, h0, if_false]
      refine ⟨a, ?_, c⟩
      rw [b, decimal_step, hd2]
      congr 1
      omega

theorem ofULong_decimal (n : Nat) :
    (∀ c ∈ ofULong n, isdigit c = true) ∧ decimalValue (ofULong n) = n ∧ ofULong n ≠ [] := by
  obtain ⟨a, b, c⟩ := toDigitsCore_decimal (n + 1) n [] (by omega) (by simp)
  exact ⟨a, by simpa [decimalValue, ofULong, Nat.toDigits] using b, c⟩

theorem Join_eq_intercalate (sep : CString) (l : List CString) :
    Join sep l = List.intercalate sep l := by
  induction l with
  | nil => rfl
  | cons x l ih =>
    cases l with
    | nil => simp [Join, List.intercalate]
    | cons y rest =>
      simp only [Join, ih]
      simp [List.intercalate, List.intersperse]

theorem serialize_eq (e : Entry) :
    e.serialize = e.chanPattern ++ ' ' :: (e.nickPattern ++ ' ' :: (ofULong e.hits
      ++ ' ' :: e.textPattern)) := by
  simp [Entry.serialize, Join]

/-! ## Commands -/

/-- C4. `OnDelFilter` with an argument that reads as `k`, `1 ≤ k ≤ n`, answers
"Filter removed." and leaves the vector without the entry at 1-based position `k`:
one entry fewer, the entries before position `k` in place, every later entry one
position down, all of them unchanged. -/
theorem OnDelFilter_valid_index (args : CString) (m : CMyFilter) (k : Nat)
    (hk : ToULong (Token 1 false args) = k) (h1 : 1 ≤ k) (h2 : k ≤ m.entries.length) :
    (OnDelFilter args m).2 = "Filter removed.".toList
    ∧ (OnDelFilter args m).1.entries = m.entries.eraseIdx (k - 1)
    ∧ (OnDelFilter args m).1.entries.length = m.entries.length - 1
    ∧ (∀ j, j < k - 1 → (OnDelFilter args m).1.entries[j]? = m.entries[j]?)
    ∧ (∀ j, k - 1 ≤ j → (OnDelFilter args m).1.entries[j]? = m.entries[j + 1]?) := by
  have hlt : k < 2 ^ 64 := hk ▸ ToULong_lt _
  have hi : (ToULong (Token 1 false args) + ULONG_RANGE - 1) % ULONG_RANGE = k - 1 := by
    rw [hk]
    simp only [ULONG_RANGE]
    omega
  have hin : k - 1 < m.entries.length := by omega
  have he : (OnDelFilter args m).1.entries = m.entries.eraseIdx (k - 1) := by
    simp [OnDelFilter, hi, hin, Save]
  refine ⟨?_, he, ?_, ?_, ?_⟩
  · simp [OnDelFilter, hi, hin]
  · rw [he, List.length_eraseIdx_of_lt hin]
  · intro j hj
    rw [he, List.getElem?_eraseIdx_of_lt _ _ _ hj]
  · intro j hj
    rw [he, List.getElem?_eraseIdx_of_ge _ _ _ hj]

/-- C4, witness: the scenario `add("#a","nick1","hello")`, `add("#a","nick2","world")`,
`delete(1)`. -/
theorem OnDelFilter_valid_index_witness :
    (OnDelFilter "del 1".toList
        ⟨[⟨"#a".toList, "nick1".toList, "hello".toList, 0⟩,
          ⟨"#a".toList, "nick2".toList, "world".toList, 0⟩], none⟩).1.entries
      = [⟨"#a".toList, "nick2".toList, "world".toList, 0⟩] :=
  (OnDelFilter_valid_index "del 1".toList
      ⟨[⟨"#a".toList, "nick1".toList, "hello".toList, 0⟩,
        ⟨"#a".toList, "nick2".toList, "world".toList, 0⟩], none⟩ 1
      (by decide) (by decide) (by decide)).2.1

/-- C5. `OnDelFilter` with an argument that reads as 0, or as a number above the length
of the vector, answers "Bad index." and leaves the vector as it was. For 0 the position
computed on `unsigned long` is `0 - 1 = 2 ^ 64 - 1`, which no vector size exceeds
(`size()` is itself below `2 ^ 64`). -/
theorem OnDelFilter_bad_index (args : CString) (m : CMyFilter) (k : Nat)
    (hk : ToULong (Token 1 false args) = k) (hbad : k = 0 ∨ m.entries.length < k)
    (hsize : m.entries.length < 2 ^ 64) :
    (OnDelFilter args m).2 = "Bad index.".toList
    ∧ (OnDelFilter args m).1.entries = m.entries
    ∧ (k = 0 → (ToULong (Token 1 false args) + ULONG_RANGE - 1) % ULONG_RANGE = 2 ^ 64 - 1) := by
  have hlt : k < 2 ^ 64 := hk ▸ ToULong_lt _
  have hi : ¬ (ToULong (Token 1 false args) + ULONG_RANGE - 1) % ULONG_RANGE
      < m.entries.length := by
    rw [hk]
    simp only [ULONG_RANGE]
    omega
  refine ⟨?_, ?_, ?_⟩
  · simp [OnDelFilter, hi]
  · simp [OnDelFilter, hi, Save]
  · intro h0
    rw [hk, h0]
    simp [ULONG_RANGE]

/-- C5, witness: `del 0` on a vector of two entries. -/
theorem OnDelFilter_bad_index_witness :
    (OnDelFilter "del 0".toList
        ⟨[⟨"#a".toList, "nick1".toList, "hello".toList, 0⟩,
          ⟨"#a".toList, "nick2".toList, "world".toList, 0⟩], none⟩).2 = "Bad index.".toList
    ∧ (OnDelFilter "del 0".toList
        ⟨[⟨"#a".toList, "nick1".toList, "hello".toList, 0⟩,
          ⟨"#a".toList, "nick2".toList, "world".toList, 0⟩], none⟩).1.entries
      = [⟨"#a".toList, "nick1".toList, "hello".toList, 0⟩,
          ⟨"#a".toList, "nick2".toList, "world".toList, 0⟩] :=
  have h := OnDelFilter_bad_index "del 0".toList
      ⟨[⟨"#a".toList, "nick1".toList, "hello".toList, 0⟩,
        ⟨"#a".toList, "nick2".toList, "world".toList, 0⟩], none⟩ 0
      (by decide) (by decide) (by decide)
  ⟨h.1, h.2.1⟩

/-- C6. `OnAddFilter` always answers "Added filter" and leaves the old vector, in order,
followed by exactly one new entry with hit count 0, whatever the command line holds
(empty patterns included) and whether or not an equal entry is already there. -/
theorem OnAddFilter_appends (args : CString) (m : CMyFilter) :
    (OnAddFilter args m).2 = "Added filter".toList
    ∧ (OnAddFilter args m).1.entries
        = m.entries ++ [⟨Token 1 false args, Token 2 false args, Token 3 true args, 0⟩]
    ∧ (OnAddFilter args m).1.entries.length = m.entries.length + 1
    ∧ (∃ e, e.hits = 0 ∧ (OnAddFilter args m).1.entries = m.entries ++ [e]) := by
  refine ⟨rfl, rfl, ?_, ⟨_, rfl, rfl⟩⟩
  simp [OnAddFilter, Save]

/-- C7. `Save` stores under "Filters" the lines of the entries, in vector order, joined by
single newlines (nothing after the last line, the empty string for no entry); the line of
an entry is its channel pattern, a space, its nick pattern, a space, its hit count in
decimal digits, a space, its text pattern. -/
theorem Save_blob (m : CMyFilter) :
    (Save m).filters = some (List.intercalate ['\n'] (m.entries.map fun e =>
        e.chanPattern ++ [' '] ++ e.nickPattern ++ [' '] ++ ofULong e.hits ++ [' ']
          ++ e.textPattern))
    ∧ (Save m).entries = m.entries
    ∧ (m.entries = [] → (Save m).filters = some [])
    ∧ (∀ e ∈ m.entries, (∀ c ∈ ofULong e.hits, isdigit c = true)
        ∧ decimalValue (ofULong e.hits) = e.hits ∧ ofULong e.hits ≠ []) := by
  refine ⟨?_, rfl, ?_, fun e _ => ofULong_decimal e.hits⟩
  · simp only [Save, Join_eq_intercalate]
    congr 2
    apply List.map_congr_left
    intro e _
    simp [serialize_eq]
  · intro h
    simp [Save, h, Join]

/-! ## `Split` -/

theorem dropEmptyLast_cons (x : CString) (l : List CString) (hl : l ≠ []) :
    dropEmptyLast (x :: l) = x :: dropEmptyLast l := by
  obtain ⟨y, l2, rfl⟩ := List.exists_cons_of_ne_nil hl
  unfold dropEmptyLast
  by_cases h : (y :: l2).getLast? = some []
  · have h2 : (x :: y :: l2).getLast? = some [] := by simpa [List.getLast?_cons_cons] using h
    rw [if_pos h, if_pos h2]
    simp [List.dropLast]
  · have h2 : ¬ (x :: y :: l2).getLast? = some [] := by simpa [List.getLast?_cons_cons] using h
    rw [if_neg h, if_neg h2]

theorem splitLoop_eq (p : List Char) : ∀ sTmp : CString,
    splitLoop p sTmp
      = dropEmptyLast (List.splitOnP.go (fun c => c == '\n') p sTmp.reverse) := by
  induction p with
  | nil =>
    intro sTmp
    by_cases h : sTmp = []
    · simp [splitLoop, List.splitOnP.go, dropEmptyLast, h]
    · simp [splitLoop, List.splitOnP.go, dropEmptyLast, h]
  | cons c p ih =>
    intro sTmp
    by_cases hc : c = '\n'
    · subst hc
      simp only [splitLoop, List.splitOnP.go, if_true, beq_self_eq_true, List.reverse_reverse]
      rw [dropEmptyLast_cons _ _ (List.splitOnP.go_ne_nil _ _ _), ih []]
      simp
    · have hc2 : (c == '\n') = false := by simpa using hc
      simp only [splitLoop, List.splitOnP.go, if_neg hc, hc2]
      rw [ih (sTmp ++ [c])]
      simp

theorem Split_eq_blobLines (blob : CString) : Split blob = blobLines blob := by
  unfold Split blobLines
  by_cases h : blob = []
  · subst h
    simp [c_str, List.splitOn, List.splitOnP, List.splitOnP.go, dropEmptyLast]
  · rw [if_neg h, splitLoop_eq]
    rfl

theorem length_splitOnP_go (p : List Char) : ∀ acc : List Char,
    (List.splitOnP.go (fun c => c == '\n') p acc).length = p.count '\n' + 1 := by
  induction p with
  | nil => intro acc; simp [List.splitOnP.go]
  | cons c p ih =>
    intro acc
    by_cases hc : c = '\n'
    · subst hc
      simp [List.splitOnP.go, ih]
    · have hc2 : (c == '\n') = false := by simpa using hc
      simp [List.splitOnP.go, hc2, ih, List.count_cons, hc]

theorem length_dropEmptyLast (l : List CString) :
    (dropEmptyLast l).length = l.length - (if l.getLast? = some [] then 1 else 0) := by
  unfold dropEmptyLast
  split <;> simp

/-- C9 (amended). Loading a stored blob into an empty vector splits what `c_str()` shows of
the blob at every newline and builds one entry a piece, in order, an empty piece
included; only the piece after the last newline is left out when it is empty (so the
empty blob gives no entry). An empty line that is not the last piece becomes the entry
with three empty patterns and hit count 0, and the number of entries is the number of
newlines, plus one when the last piece is not empty. -/
theorem OnLoad_lines (blob : CString) :
    (OnLoad ⟨[], some blob⟩).entries = (blobLines blob).map Entry.deserialize
    ∧ (OnLoad ⟨[], some blob⟩).entries.length
        = (c_str blob).count '\n'
          + (if ((c_str blob).splitOn '\n').getLast? = some [] then 0 else 1)
    ∧ Entry.deserialize [] = ⟨[], [], [], 0⟩ := by
  refine ⟨?_, ?_, by decide⟩
  · simp [OnLoad, Split_eq_blobLines]
  · simp only [OnLoad, Split_eq_blobLines, List.nil_append, List.length_map, blobLines,
      length_dropEmptyLast]
    have hlen : ((c_str blob).splitOn '\n').length = (c_str blob).count '\n' + 1 :=
      length_splitOnP_go _ _
    rw [hlen]
    split <;> simp

/-- C9, counterexample: a blob of two lines with an empty line between them loads three
entries, the middle one built from the empty line, while it has two non-empty lines. -/
theorem OnLoad_empty_line_entry :
    (OnLoad ⟨[], some "a b 1 c\n\nd e 2 f".toList⟩).entries
      = [⟨"a".toList, "b".toList, "c".toList, 1⟩, ⟨[], [], [], 0⟩,
         ⟨"d".toList, "e".toList, "f".toList, 2⟩]
    ∧ (OnLoad ⟨[], some "a b 1 c\n\nd e 2 f".toList⟩).entries.length = 3
    ∧ (("a b 1 c\n\nd e 2 f".toList.splitOn '\n').filter (fun l => l != [])).length = 2 := by
  decide

/-! ## `Token` -/

theorem spaceTokens_nil : spaceTokens [] = [] := by decide

theorem spaceTokens_space (s : CString) : spaceTokens (' ' :: s) = spaceTokens s := by
  simp [spaceTokens, List.splitOn, List.splitOnP_cons]

theorem spaceTokens_word (w rest : CString) (hw : w ≠ []) (hns : ∀ c ∈ w, c ≠ ' ') :
    spaceTokens (w ++ ' ' :: rest) = w :: spaceTokens rest := by
  unfold spaceTokens List.splitOn
  rw [List.splitOnP_first (fun c => c == ' ') w (by simpa using hns) ' ' (by simp) rest]
  simp [List.filter_cons, hw]

theorem spaceTokens_single (w : CString) (hw : w ≠ []) (hns : ∀ c ∈ w, c ≠ ' ') :
    spaceTokens w = [w] := by
  unfold spaceTokens List.splitOn
  rw [List.splitOnP_eq_single (fun c => c == ' ') w (by simpa using hns)]
  simp [List.filter_cons, hw]

theorem spaceTokens_spaces_append (sp s : CString) (hsp : ∀ c ∈ sp, c = ' ') :
    spaceTokens (sp ++ s) = spaceTokens s := by
  induction sp with
  | nil => rfl
  | cons c sp ih =>
    have hc : c = ' ' := hsp c (List.mem_cons_self _ _)
    subst hc
    rw [List.cons_append, spaceTokens_space]
    exact ih (fun x hx => hsp x (List.mem_cons_of_mem _ hx))

theorem takeWhile_space_all (s : CString) :
    ∀ c ∈ s.takeWhile (fun c => c == ' '), c = ' ' := by
  intro c hc
  simpa using List.mem_takeWhile_imp hc

theorem takeWhile_nonspace_all (s : CString) :
    ∀ c ∈ s.takeWhile (fun c => c != ' '), c ≠ ' ' := by
  intro c hc
  simpa using List.mem_takeWhile_imp hc

theorem spaceTokens_dropWhile (s : CString) :
    spaceTokens (s.dropWhile (fun c => c == ' ')) = spaceTokens s := by
  conv_rhs => rw [← List.takeWhile_append_dropWhile (fun c => c == ' ') s]
  rw [spaceTokens_spaces_append _ _ (takeWhile_space_all s)]

theorem head?_dropWhile_space (s : CString) :
    (s.dropWhile (fun c => c == ' ')).head? ≠ some ' ' := by
  induction s with
  | nil => simp
  | cons c s ih =>
    by_cases hc : c = ' '
    · subst hc; simpa using ih
    · rw [List.dropWhile_cons]
      simp [hc]

theorem dropWhile_nonspace_cases (s : CString) :
    s.dropWhile (fun c => c != ' ') = []
      ∨ ∃ rest, s.dropWhile (fun c => c != ' ') = ' ' :: rest := by
  induction s with
  | nil => left; rfl
  | cons c s ih =>
    by_cases hc : c = ' '
    · subst hc
      right
      exact ⟨s, by simp⟩
    · rw [List.dropWhile_cons]
      simpa [hc] using ih

theorem takeWhile_nonspace_ne_nil (s : CString) (hs : s ≠ []) (hh : s.head? ≠ some ' ') :
    s.takeWhile (fun c => c != ' ') ≠ [] := by
  cases s with
  | nil => exact absurd rfl hs
  | cons c s =>
    have hc : c ≠ ' ' := by simpa using hh
    rw [List.takeWhile_cons]
    simp [hc]

theorem tokenStart_nil (n : Nat) : tokenStart n [] = [] := by
  cases n <;> simp [tokenStart]

theorem tokenStart_succ_word (n : Nat) (w rest : CString) (hns : ∀ c ∈ w, c ≠ ' ') :
    tokenStart (n + 1) (w ++ ' ' :: rest)
      = tokenStart n (rest.dropWhile (fun c => c == ' ')) := by
  have h1 : (w ++ ' ' :: rest).dropWhile (fun c => c != ' ') = ' ' :: rest := by
    rw [List.dropWhile_append_of_pos (by simpa using hns)]
    simp
  simp only [tokenStart, h1]
  simp

theorem tokenStart_succ_single (n : Nat) (w : CString) (hns : ∀ c ∈ w, c ≠ ' ') :
    tokenStart (n + 1) w = [] := by
  have h1 : w.dropWhile (fun c => c != ' ') = [] := by
    rw [List.dropWhile_eq_nil_iff]
    simpa using hns
  simp only [tokenStart, h1]

theorem tokenStart_spec (n : Nat) : ∀ s : CString, s.head? ≠ some ' ' →
    (tokenStart n s).head? ≠ some ' '
    ∧ (tokenStart n s).takeWhile (fun c => c != ' ') = (spaceTokens s).getD n []
    ∧ ((spaceTokens s).length ≤ n → tokenStart n s = [])
    ∧ (n < (spaceTokens s).length → tokenStart n s ≠ []
        ∧ ∃ pre, s = pre ++ tokenStart n s ∧ spaceTokens pre = (spaceTokens s).take n) := by
  induction n with
  | zero =>
    intro s hh
    by_cases hs : s = []
    · subst hs
      simp [tokenStart, spaceTokens_nil]
    · have hw := takeWhile_nonspace_ne_nil s hs hh
      have hsplit := List.takeWhile_append_dropWhile (fun c => c != ' ') s
      have htok : ∃ tl, spaceTokens s = s.takeWhile (fun c => c != ' ') :: tl := by
        rcases dropWhile_nonspace_cases s with hd | ⟨rest, hd⟩
        · rw [hd, List.append_nil] at hsplit
          refine ⟨[], ?_⟩
          rw [hsplit]
          exact spaceTokens_single s hs (by rw [← hsplit]; exact takeWhile_nonspace_all s)
        · refine ⟨spaceTokens rest, ?_⟩
          conv_lhs => rw [← hsplit, hd]
          exact spaceTokens_word _ _ hw (takeWhile_nonspace_all s)
      obtain ⟨tl, htl⟩ := htok
      refine ⟨hh, ?_, ?_, ?_⟩
      · simp [tokenStart, htl]
      · intro hlen
        rw [htl] at hlen
        simp at hlen
      · intro _
        exact ⟨hs, [], by simp [tokenStart], by simp [spaceTokens_nil]⟩
  | succ n ih =>
    intro s hh
    by_cases hs : s = []
    · subst hs
      simp [tokenStart_nil, spaceTokens_nil]
    · have hw := takeWhile_nonspace_ne_nil s hs hh
      have hsplit := List.takeWhile_append_dropWhile (fun c => c != ' ') s
      have hns := takeWhile_nonspace_all s
      rcases dropWhile_nonspace_cases s with hd | ⟨rest, hd⟩
      · rw [hd, List.append_nil] at hsplit
        rw [hsplit] at hns
        have htok := spaceTokens_single s hs hns
        rw [tokenStart_succ_single n s hns, htok]
        simp
      · rw [hd] at hsplit
        have htok : spaceTokens s
            = s.takeWhile (fun c => c != ' ')
              :: spaceTokens (rest.dropWhile (fun c => c == ' ')) := by
          conv_lhs => rw [← hsplit]
          rw [spaceTokens_word _ _ hw hns, spaceTokens_dropWhile]
        have hstart : tokenStart (n + 1) s
            = tokenStart n (rest.dropWhile (fun c => c == ' ')) := by
          conv_lhs => rw [← hsplit]
          exact tokenStart_succ_word n _ rest hns
        obtain ⟨a, b, c, d⟩ := ih (rest.dropWhile (fun c => c == ' ')) (head?_dropWhile_space rest)
        rw [hstart, htok]
        refine ⟨a, ?_, ?_, ?_⟩
        · simpa using b
        · intro hlen
          exact c (by simpa using hlen)
        · intro hlen
          obtain ⟨hne, pre, hpre, htk⟩ := d (by simpa using hlen)
          refine ⟨hne, s.takeWhile (fun c => c != ' ')
            ++ ' ' :: (rest.takeWhile (fun c => c == ' ') ++ pre), ?_, ?_⟩
          · conv_lhs => rw [← hsplit]
            rw [List.append_assoc, List.cons_append, List.append_assoc, ← hpre,
              List.takeWhile_append_dropWhile]
          · rw [spaceTokens_word _ _ hw hns,
              spaceTokens_spaces_append _ _ (takeWhile_space_all rest), htk]
            simp

theorem Token_eq_spaceTokens (n : Nat) (line : CString) :
    Token n false line = (spaceTokens line).getD n [] := by
  obtain ⟨_, b, _, _⟩ := tokenStart_spec n _ (head?_dropWhile_space line)
  simp only [Token]
  rw [spaceTokens_dropWhile] at b
  simpa using b

theorem Token_rest_spec (n : Nat) (line : CString) :
    ((spaceTokens line).length ≤ n → Token n true line = [])
    ∧ (n < (spaceTokens line).length →
        (spaceTokens line).getD n [] <+: Token n true line
        ∧ ∃ pre, line = pre ++ Token n true line
            ∧ spaceTokens pre = (spaceTokens line).take n) := by
  obtain ⟨_, b, c, d⟩ := tokenStart_spec n _ (head?_dropWhile_space line)
  rw [spaceTokens_dropWhile] at b c d
  have hT : Token n true line = tokenStart n (line.dropWhile (fun c => c == ' ')) := by
    simp [Token]
  rw [hT]
  refine ⟨c, ?_⟩
  intro hlen
  obtain ⟨_, pre, hpre, htk⟩ := d hlen
  refine ⟨?_, line.takeWhile (fun c => c == ' ') ++ pre, ?_, ?_⟩
  · rw [← b]
    exact List.takeWhile_prefix _
  · rw [List.append_assoc, ← hpre, List.takeWhile_append_dropWhile]
  · rw [spaceTokens_spaces_append _ _ (takeWhile_space_all line), htk]

/-! ## `ToULong` -/

theorem isdigit_props (c : Char) (h : isdigit c = true) :
    c ≠ '\x00' ∧ isspace c = false ∧ c ≠ '-' ∧ c ≠ '+' ∧ c ≠ ' ' ∧ c ≠ '\n' := by
  have key : ∀ x : Char, isdigit x = false → c ≠ x := by
    intro x hx e
    subst e
    rw [h] at hx
    cases hx
  have h1 := key '\x00' (by decide)
  have h2 := key ' ' (by decide)
  have h3 := key '\t' (by decide)
  have h4 := key '\n' (by decide)
  have h5 := key '\x0b' (by decide)
  have h6 := key '\x0c' (by decide)
  have h7 := key '\r' (by decide)
  refine ⟨h1, ?_, key '-' (by decide), key '+' (by decide), h2, h4⟩
  simp [isspace, h2, h3, h4, h5, h6, h7]

theorem c_str_eq_self (s : CString) (h : ∀ c ∈ s, c ≠ '\x00') : c_str s = s := by
  unfold c_str
  rw [List.takeWhile_eq_self_iff]
  simpa using h

theorem c_str_append (ds rest : CString) (h : ∀ c ∈ ds, c ≠ '\x00') :
    c_str (ds ++ rest) = ds ++ c_str rest := by
  unfold c_str
  rw [List.takeWhile_append_of_pos (by simpa using h)]

theorem ToULong_nil : ToULong [] = 0 := by decide

theorem strtoul_no_digit (c : Char) (rest : List Char) (hd : isdigit c = false)
    (hs : isspace c = false) (hp : c ≠ '+') (hm : c ≠ '-') : strtoul (c :: rest) = 0 := by
  have h1 : (c :: rest).dropWhile isspace = c :: rest := by
    rw [List.dropWhile_cons]; simp [hs]
  unfold strtoul
  simp [h1, hp, hm, List.takeWhile_cons, hd, decimalValue, ULONG_MAX]

theorem ToULong_no_digit (c : Char) (rest : CString) (hd : isdigit c = false)
    (hs : isspace c = false) (hp : c ≠ '+') (hm : c ≠ '-') : ToULong (c :: rest) = 0 := by
  unfold ToULong
  by_cases h0 : c = '\x00'
  · subst h0
    simp [c_str, strtoul, decimalValue, ULONG_MAX]
  · have : c_str (c :: rest) = c :: c_str rest := by
      simp [c_str, List.takeWhile_cons, h0]
    rw [this]
    exact strtoul_no_digit c _ hd hs hp hm

theorem takeWhile_isdigit_nil (r : List Char) (h : ∀ c, r.head? = some c → isdigit c = false) :
    r.takeWhile isdigit = [] := by
  cases r with
  | nil => rfl
  | cons c r =>
    rw [List.takeWhile_cons]
    simp [h c rfl]

theorem strtoul_digits (ds rest : List Char) (hne : ds ≠ [])
    (hds : ∀ c ∈ ds, isdigit c = true) (hrest : ∀ c, rest.head? = some c → isdigit c = false) :
    strtoul (ds ++ rest) = min (decimalValue ds) ULONG_MAX := by
  obtain ⟨d, ds2, rfl⟩ := List.exists_cons_of_ne_nil hne
  obtain ⟨_, hsp, hm, hp, _, _⟩ := isdigit_props d (hds d (List.mem_cons_self _ _))
  have h1 : (d :: ds2 ++ rest).dropWhile isspace = d :: ds2 ++ rest := by
    rw [List.cons_append, List.dropWhile_cons]; simp [hsp]
  have h2 : (d :: ds2 ++ rest).takeWhile isdigit = d :: ds2 := by
    rw [List.takeWhile_append_of_pos hds, takeWhile_isdigit_nil rest hrest]
    simp
  unfold strtoul
  rw [h1]
  simp only [List.cons_append, List.head?_cons, Option.some.injEq, beq_iff_eq]
  simp only [hm, hp, Bool.or_self, Bool.false_eq_true, if_false]
  have hsign : (some d == some '-' || some d == some '+') = false := by simp [hm, hp]
  simp only [hsign, Bool.false_eq_true, if_false]
  rw [← List.cons_append, h2]
  by_cases hv : ULONG_MAX < decimalValue (d :: ds2)
  · rw [if_pos hv]; omega
  · rw [if_neg hv]; simp; omega

theorem ToULong_digits (ds rest : CString) (hne : ds ≠ [])
    (hds : ∀ c ∈ ds, isdigit c = true) (hrest : ∀ c, rest.head? = some c → isdigit c = false) :
    ToULong (ds ++ rest) = min (decimalValue ds) ULONG_MAX := by
  unfold ToULong
  rw [c_str_append ds rest (fun c hc => (isdigit_props c (hds c hc)).1)]
  apply strtoul_digits ds _ hne hds
  intro c hc
  cases rest with
  | nil => simp [c_str] at hc
  | cons r rest =>
    by_cases h0 : r = '\x00'
    · subst h0; simp [c_str] at hc
    · have : c_str (r :: rest) = r :: c_str rest := by
        simp [c_str, List.takeWhile_cons, h0]
      rw [this] at hc
      simp at hc
      subst hc
      exact hrest r rfl

/-- C8 (amended). `Entry::deserialize` builds an entry from every line, positionally: the
channel pattern is space-separated token 0, the nick pattern token 1, the text pattern
everything from the start of token 3 to the end of the line (empty when there is no
token 3), and the hit count is what `strtoul` reads from token 2: 0 when token 2 is
missing or starts with a char that is no digit, sign or white space, and the value of
the leading run of decimal digits, capped at `ULONG_MAX`, when token 2 starts with a
digit (whatever follows the digits). -/
theorem deserialize_positional (line : CString) :
    (Entry.deserialize line).chanPattern = (spaceTokens line).getD 0 []
    ∧ (Entry.deserialize line).nickPattern = (spaceTokens line).getD 1 []
    ∧ (Entry.deserialize line).hits = ToULong ((spaceTokens line).getD 2 [])
    ∧ ((spaceTokens line).length ≤ 2 → (Entry.deserialize line).hits = 0)
    ∧ ((spaceTokens line).length ≤ 3 → (Entry.deserialize line).textPattern = [])
    ∧ (3 < (spaceTokens line).length →
        (spaceTokens line).getD 3 [] <+: (Entry.deserialize line).textPattern
        ∧ ∃ pre, line = pre ++ (Entry.deserialize line).textPattern
            ∧ spaceTokens pre = (spaceTokens line).take 3)
    ∧ (∀ c rest, isdigit c = false → isspace c = false → c ≠ '+' → c ≠ '-' →
        ToULong (c :: rest) = 0)
    ∧ (∀ ds rest, ds ≠ [] → (∀ c ∈ ds, isdigit c = true) →
        (∀ c, rest.head? = some c → isdigit c = false) →
        ToULong (ds ++ rest) = min (decimalValue ds) ULONG_MAX) := by
  have h2 : (Entry.deserialize line).hits = ToULong ((spaceTokens line).getD 2 []) := by
    simp only [Entry.deserialize, Token_eq_spaceTokens]
  refine ⟨Token_eq_spaceTokens 0 line, Token_eq_spaceTokens 1 line, h2, ?_,
    (Token_rest_spec 3 line).1, (Token_rest_spec 3 line).2, ToULong_no_digit, ToULong_digits⟩
  intro hlen
  rw [h2, List.getD_eq_default _ _ hlen]
  exact ToULong_nil

/-- C8, counterexample: in the line `c n 12abc t` token 2 is `12abc`, which is not a
number, and the hit count of the entry built from the line is 12, not 0. -/
theorem deserialize_digit_run :
    (spaceTokens "c n 12abc t".toList).getD 2 [] = "12abc".toList
    ∧ "12abc".toList.all isdigit = false
    ∧ (Entry.deserialize "c n 12abc t".toList).hits = 12
    ∧ (Entry.deserialize "c n 12abc t".toList).hits ≠ 0 := by
  decide

/-! ## Round trip of the stored blob -/

theorem dropWhile_space_of_head (s : CString) (h : s.head? ≠ some ' ') :
    s.dropWhile (fun c => c == ' ') = s := by
  cases s with
  | nil => rfl
  | cons c s =>
    have hc : c ≠ ' ' := by simpa using h
    rw [List.dropWhile_cons]
    simp [hc]

theorem head?_append_ne_space (w rest : CString) (hw : w ≠ []) (hns : ∀ c ∈ w, c ≠ ' ') :
    (w ++ rest).head? ≠ some ' ' := by
  obtain ⟨c, w2, rfl⟩ := List.exists_cons_of_ne_nil hw
  have := hns c (List.mem_cons_self _ _)
  simpa using this

theorem deserialize_serialize (e : Entry) (h : e.storable) :
    Entry.deserialize e.serialize = e := by
  obtain ⟨hc, hn, hcs, hnk, _, htx, hh⟩ := h
  obtain ⟨hd1, hd2, hd3⟩ := ofULong_decimal e.hits
  have hcsp : ∀ c ∈ e.chanPattern, c ≠ ' ' := fun c hc => (hcs c hc).1
  have hnsp : ∀ c ∈ e.nickPattern, c ≠ ' ' := fun c hc => (hnk c hc).1
  have hdsp : ∀ c ∈ ofULong e.hits, c ≠ ' ' := fun c hc => (isdigit_props c (hd1 c hc)).2.2.2.2.1
  have htok : spaceTokens e.serialize
      = e.chanPattern :: e.nickPattern :: ofULong e.hits :: spaceTokens e.textPattern := by
    rw [serialize_eq, spaceTokens_word _ _ hc hcsp, spaceTokens_word _ _ hn hnsp,
      spaceTokens_word _ _ hd3 hdsp]
  have htext : Token 3 true e.serialize = e.textPattern := by
    simp only [Token, if_true]
    rw [serialize_eq, dropWhile_space_of_head _ (head?_append_ne_space _ _ hc hcsp),
      tokenStart_succ_word 2 _ _ hcsp,
      dropWhile_space_of_head _ (head?_append_ne_space _ _ hn hnsp),
      tokenStart_succ_word 1 _ _ hnsp,
      dropWhile_space_of_head _ (head?_append_ne_space _ _ hd3 hdsp),
      tokenStart_succ_word 0 _ _ hdsp, dropWhile_space_of_head _ htx]
    rfl
  have hhits : ToULong (ofULong e.hits) = e.hits := by
    have := ToULong_digits (ofULong e.hits) [] hd3 hd1 (by simp)
    rw [List.append_nil, hd2] at this
    rw [this]
    have : ULONG_MAX = 2 ^ 64 - 1 := rfl
    omega
  cases e with
  | mk chan nick text hits =>
    simp only [Entry.deserialize, Token_eq_spaceTokens, htok, htext]
    simp [hhits]

theorem mem_Join (sep : CString) (c : Char) : ∀ l : List CString,
    c ∈ Join sep l → c ∈ sep ∨ ∃ x ∈ l, c ∈ x := by
  intro l
  induction l with
  | nil => intro h; simp [Join] at h
  | cons x l ih =>
    cases l with
    | nil => intro h; right; exact ⟨x, by simp, by simpa [Join] using h⟩
    | cons y rest =>
      intro h
      simp only [Join, List.mem_append] at h
      rcases h with (h | h) | h
      · right; exact ⟨x, by simp, h⟩
      · left; exact h
      · rcases ih h with h2 | ⟨z, hz, hcz⟩
        · left; exact h2
        · right; exact ⟨z, List.mem_cons_of_mem _ hz, hcz⟩

theorem serialize_chars (e : Entry) (h : e.storable) :
    e.serialize ≠ [] ∧ ∀ c ∈ e.serialize, c ≠ '\n' ∧ c ≠ '\x00' := by
  obtain ⟨hc, _, hcs, hnk, htxt, _, _⟩ := h
  obtain ⟨hd1, _, _⟩ := ofULong_decimal e.hits
  rw [serialize_eq]
  refine ⟨by simp [hc], ?_⟩
  intro c hmem
  have hsp : (' ' : Char) ≠ '\n' ∧ (' ' : Char) ≠ '\x00' := by decide
  simp only [List.mem_append, List.mem_cons] at hmem
  rcases hmem with h | rfl | h | rfl | h | rfl | h
  · exact (hcs c h).2
  · exact hsp
  · exact (hnk c h).2
  · exact hsp
  · exact ⟨(isdigit_props c (hd1 c h)).2.2.2.2.2, (isdigit_props c (hd1 c h)).1⟩
  · exact hsp
  · exact htxt c h

theorem Split_Join (lines : List CString) (hne : ∀ l ∈ lines, l ≠ [])
    (hch : ∀ l ∈ lines, ∀ c ∈ l, c ≠ '\n' ∧ c ≠ '\x00') :
    Split (Join ['\n'] lines) = lines := by
  by_cases hl : lines = []
  · subst hl; decide
  · have hnul : ∀ c ∈ Join ['\n'] lines, c ≠ '\x00' := by
      intro c hc
      rcases mem_Join _ c lines hc with h | ⟨x, hx, hcx⟩
      · have : c = '\n' := by simpa using h
        subst this; decide
      · exact (hch x hx c hcx).2
    rw [Split_eq_blobLines, blobLines, c_str_eq_self _ hnul, Join_eq_intercalate,
      List.splitOn_intercalate lines '\n' (fun l hl c => (hch l hl '\n' c).1 rfl) hl]
    unfold dropEmptyLast
    rw [if_neg]
    intro hlast
    exact hne [] (List.mem_of_getLast?_eq_some hlast) rfl

/-- C3 (amended). Round trip: for a vector whose entries all have a non-empty channel
pattern and nick pattern without space, newline or NUL, a text pattern without newline
or NUL that does not start with a space (spaces further in are allowed), and a hit count
below `2 ^ 64`, loading into an empty vector the blob that `Save` stores yields the same
entries, in the same order, with the same four fields. -/
theorem OnLoad_Save_roundtrip (entries : List Entry) (old : Option CString)
    (h : ∀ e ∈ entries, e.storable) :
    (OnLoad ⟨[], (Save ⟨entries, old⟩).filters⟩).entries = entries := by
  have hlines : Split (Join ['\n'] (entries.map Entry.serialize))
      = entries.map Entry.serialize := by
    apply Split_Join
    · intro l hl
      obtain ⟨e, he, rfl⟩ := List.mem_map.mp hl
      exact (serialize_chars e (h e he)).1
    · intro l hl
      obtain ⟨e, he, rfl⟩ := List.mem_map.mp hl
      exact (serialize_chars e (h e he)).2
  simp only [OnLoad, Save, hlines, List.nil_append, List.map_map]
  conv_rhs => rw [← List.map_id entries]
  apply List.map_congr_left
  intro e he
  exact deserialize_serialize e (h e he)

/-- C3, witness: two entries, one whose text pattern holds spaces. -/
theorem OnLoad_Save_roundtrip_witness :
    (OnLoad ⟨[], (Save ⟨[⟨"#a".toList, "nick1".toList, "hello big world".toList, 7⟩,
        ⟨"#b*".toList, "*".toList, "".toList, 0⟩], none⟩).filters⟩).entries
      = [⟨"#a".toList, "nick1".toList, "hello big world".toList, 7⟩,
        ⟨"#b*".toList, "*".toList, "".toList, 0⟩] :=
  OnLoad_Save_roundtrip _ none (by decide)

/-- C3, counterexample: an entry with an empty channel pattern, and one whose text
pattern starts with a space, do not come back from the stored blob. -/
theorem OnLoad_Save_not_roundtrip :
    (OnLoad ⟨[], (Save ⟨[⟨"".toList, "bob".toList, "hi".toList, 0⟩], none⟩).filters⟩).entries
      = [⟨"bob".toList, "0".toList, "".toList, 0⟩]
    ∧ (OnLoad ⟨[], (Save ⟨[⟨"".toList, "bob".toList, "hi".toList, 0⟩], none⟩).filters⟩).entries
      ≠ [⟨"".toList, "bob".toList, "hi".toList, 0⟩]
    ∧ (OnLoad ⟨[], (Save ⟨[⟨"#a".toList, "bob".toList, " hi".toList, 0⟩], none⟩).filters⟩).entries
      = [⟨"#a".toList, "bob".toList, "hi".toList, 0⟩] := by
  decide

/-! ## `WildCmp` -/

theorem tolower_cases (c : Char) :
    tolower c = c ∨ (65 ≤ c.toNat ∧ c.toNat ≤ 90 ∧ 97 ≤ (tolower c).toNat) := by
  by_cases h : 65 ≤ c.toNat ∧ c.toNat ≤ 90
  · right
    refine ⟨h.1, h.2, ?_⟩
    have hc : c = Char.ofNat c.toNat := (Char.ofNat_toNat c).symm
    obtain ⟨h1, h2⟩ := h
    generalize c.toNat = n at hc h1 h2
    subst hc
    interval_cases n <;> decide
  · left
    simp only [tolower, Char.toLower]
    rw [if_neg]
    simpa using h

theorem tolower_eq_iff (c x : Char) (hx : x.toNat < 65) : tolower c = x ↔ c = x := by
  constructor
  · intro h
    rcases tolower_cases c with h1 | ⟨_, _, h3⟩
    · rw [← h1, h]
    · rw [h] at h3; omega
  · intro h
    subst h
    rcases tolower_cases c with h1 | ⟨h2, _, _⟩
    · exact h1
    · omega

theorem tolower_eq_star (c : Char) : tolower c = '*' ↔ c = '*' :=
  tolower_eq_iff c '*' (by decide)

theorem tolower_eq_qmark (c : Char) : tolower c = '?' ↔ c = '?' :=
  tolower_eq_iff c '?' (by decide)

theorem tolower_eq_nul (c : Char) : tolower c = '\x00' ↔ c = '\x00' :=
  tolower_eq_iff c '\x00' (by decide)

theorem c_str_AsLower (s : CString) : c_str (AsLower s) = (c_str s).map tolower := by
  induction s with
  | nil => rfl
  | cons c s ih =>
    simp only [c_str, AsLower] at ih ⊢
    by_cases h0 : c = '\x00'
    · subst h0
      simp [List.takeWhile_cons, (tolower_eq_nul '\x00').mpr rfl]
    · have h1 : tolower c ≠ '\x00' := fun h => h0 ((tolower_eq_nul c).mp h)
      simp [List.takeWhile_cons, h0, h1, ih]

theorem Glob_nil (s : List Char) : Glob [] s ↔ s = [] := by
  simp [Glob]

theorem Glob_star (w s : List Char) : Glob ('*' :: w) s ↔ ∃ t, t <:+ s ∧ Glob w t := by
  simp [Glob]

theorem Glob_cons (p : Char) (w s : List Char) (hp : p ≠ '*') :
    Glob (p :: w) s ↔ ∃ c s', s = c :: s' ∧ charFits p c ∧ Glob w s' := by
  simp [Glob, hp]

theorem Glob_cons_cons (p c : Char) (w s : List Char) (hp : p ≠ '*') :
    Glob (p :: w) (c :: s) ↔ charFits p c ∧ Glob w s := by
  rw [Glob_cons p w _ hp]
  constructor
  · rintro ⟨c2, s2, heq, hf, hg⟩
    cases heq
    exact ⟨hf, hg⟩
  · rintro ⟨hf, hg⟩
    exact ⟨c, s, rfl, hf, hg⟩

theorem Glob_cons_nil (p : Char) (w : List Char) (hp : p ≠ '*') : ¬ Glob (p :: w) [] := by
  rw [Glob_cons p w _ hp]
  rintro ⟨c, s, h, _⟩
  cases h

theorem Glob_star_mono (w t s : List Char) (hts : t <:+ s) (h : Glob ('*' :: w) t) :
    Glob ('*' :: w) s := by
  rw [Glob_star] at h ⊢
  obtain ⟨u, hu, hg⟩ := h
  exact ⟨u, hu.trans hts, hg⟩

theorem Glob_star_cons (w : List Char) (x : Char) (s : List Char) :
    Glob ('*' :: w) (x :: s) ↔ Glob w (x :: s) ∨ Glob ('*' :: w) s := by
  rw [Glob_star, Glob_star]
  constructor
  · rintro ⟨t, ht, hg⟩
    rcases List.suffix_cons_iff.mp ht with rfl | h
    · left; exact hg
    · right; exact ⟨t, h, hg⟩
  · rintro (h | ⟨t, ht, hg⟩)
    · exact ⟨_, List.suffix_refl _, h⟩
    · exact ⟨t, List.suffix_cons_iff.mpr (Or.inr ht), hg⟩

/-- A star-free run of pattern chars takes exactly as many subject chars. -/
theorem Glob_append (q w t : List Char) (hq : ∀ p ∈ q, p ≠ '*') :
    Glob (q ++ w) t ↔ ∃ t0 t1, t = t0 ++ t1 ∧ List.Forall₂ charFits q t0 ∧ Glob w t1 := by
  induction q generalizing t with
  | nil =>
    constructor
    · intro h; exact ⟨[], t, rfl, List.Forall₂.nil, h⟩
    · rintro ⟨t0, t1, rfl, hf, hg⟩
      cases hf
      exact hg
  | cons p q ih =>
    have hp : p ≠ '*' := hq p (List.mem_cons_self _ _)
    have hq2 : ∀ x ∈ q, x ≠ '*' := fun x hx => hq x (List.mem_cons_of_mem _ hx)
    rw [List.cons_append, Glob_cons _ _ _ hp]
    constructor
    · rintro ⟨c, s, rfl, hf, hg⟩
      obtain ⟨t0, t1, rfl, hf2, hg2⟩ := (ih s hq2).mp hg
      exact ⟨c :: t0, t1, rfl, List.Forall₂.cons hf hf2, hg2⟩
    · rintro ⟨t0, t1, rfl, hf, hg⟩
      cases hf with
      | cons hf1 hf2 =>
        exact ⟨_, _, rfl, hf1, (ih _ hq2).mpr ⟨_, t1, rfl, hf2, hg⟩⟩

theorem wildTail_iff (w : List Char) : wildTail w = true ↔ Glob w [] := by
  induction w with
  | nil => simp [wildTail, Glob]
  | cons p w ih =>
    by_cases hp : p = '*'
    · subst hp
      simp only [wildTail, if_true, ih, Glob_star]
      constructor
      · intro h; exact ⟨[], List.suffix_refl _, h⟩
      · rintro ⟨t, ht, hg⟩
        have : t = [] := List.eq_nil_of_suffix_nil ht
        subst this
        exact hg
    · simp only [wildTail, if_neg hp]
      constructor
      · intro h; cases h
      · intro h; exact absurd h (Glob_cons_nil p w hp)

theorem wildHead_spec : ∀ (S W : List Char),
    match wildHead W S with
    | none => ¬ Glob W S
    | some (w, s) => (Glob W S ↔ Glob w s) ∧ (s = [] ∨ ∃ w', w = '*' :: w')
        ∧ w.length ≤ W.length ∧ s.length ≤ S.length := by
  intro S
  induction S with
  | nil =>
    intro W
    cases W <;> simp [wildHead]
  | cons c s ih =>
    intro W
    cases W with
    | nil => simp [wildHead, Glob]
    | cons p w =>
      by_cases hp : p = '*'
      · subst hp
        simp [wildHead]
      · by_cases hf : p ≠ c ∧ p ≠ '?'
        · simp only [wildHead, if_neg hp, if_pos hf]
          rw [Glob_cons_cons p c w s hp]
          rintro ⟨h | h, _⟩
          · exact hf.1 h
          · exact hf.2 h
        · simp only [wildHead, if_neg hp, if_neg hf]
          have hfit : charFits p c := by
            unfold charFits
            by_contra hc
            push_neg at hc
            exact hf hc
          have := ih w
          revert this
          cases wildHead w s with
          | none =>
            intro h
            simp only at h ⊢
            rw [Glob_cons_cons p c w s hp]
            exact fun hh => h hh.2
          | some ws =>
            obtain ⟨w2, s2⟩ := ws
            intro h
            simp only at h ⊢
            obtain ⟨h1, h2, h3, h4⟩ := h
            refine ⟨?_, h2, ?_, ?_⟩
            · rw [Glob_cons_cons p c w s hp, ← h1]
              exact ⟨fun hh => hh.2, fun hh => ⟨hfit, hh⟩⟩
            · simp; omega
            · simp; omega

theorem Glob_end (q w s0 : List Char) (hq : ∀ p ∈ q, p ≠ '*')
    (hpm : List.Forall₂ charFits q s0) :
    Glob ('*' :: (q ++ w)) s0 ↔ Glob w [] := by
  rw [Glob_star]
  constructor
  · rintro ⟨t, ht, hg⟩
    obtain ⟨t0, t1, rfl, hf, hg1⟩ := (Glob_append q w t hq).mp hg
    have h1 := hf.length_eq
    have h2 := hpm.length_eq
    have h3 := ht.length_le
    rw [List.length_append] at h3
    have : t1 = [] := List.eq_nil_of_length_eq_zero (by omega)
    subst this
    exact hg1
  · intro h
    exact ⟨s0, List.suffix_refl _, (Glob_append q w s0 hq).mpr ⟨s0, [], by simp, hpm, h⟩⟩

theorem Glob_commit (q w s0 s : List Char) (hq : ∀ p ∈ q, p ≠ '*')
    (hpm : List.Forall₂ charFits q s0) :
    Glob ('*' :: (q ++ '*' :: w)) (s0 ++ s) ↔ Glob ('*' :: w) s := by
  constructor
  · intro h
    rw [Glob_star] at h
    obtain ⟨t, ht, hg⟩ := h
    obtain ⟨t0, t1, rfl, hf, hg1⟩ := (Glob_append q _ t hq).mp hg
    have h1 := hf.length_eq
    have h2 := hpm.length_eq
    have h3 := ht.length_le
    simp only [List.length_append] at h3
    have hsuf : t1 <:+ s :=
      List.suffix_of_suffix_length_le ((List.suffix_append t0 t1).trans ht)
        (List.suffix_append s0 s) (by omega)
    exact Glob_star_mono w t1 s hsuf hg1
  · intro h
    rw [Glob_star]
    exact ⟨s0 ++ s, List.suffix_refl _, (Glob_append q _ _ hq).mpr ⟨s0, s, rfl, hpm, h⟩⟩

theorem Glob_backtrack (q w s0 : List Char) (c : Char) (s : List Char)
    (hq : ∀ p ∈ q, p ≠ '*') (hpm : List.Forall₂ charFits q s0) (hw : ¬ Glob w (c :: s)) :
    Glob ('*' :: (q ++ w)) (s0 ++ c :: s) ↔ Glob ('*' :: (q ++ w)) (s0 ++ c :: s).tail := by
  have hno : ¬ Glob (q ++ w) (s0 ++ c :: s) := by
    intro hg
    obtain ⟨t0, t1, heq, hf, hg1⟩ := (Glob_append q w _ hq).mp hg
    have hlen : s0.length = t0.length := by rw [← hpm.length_eq, hf.length_eq]
    obtain ⟨_, h2⟩ := List.append_inj heq hlen
    rw [← h2] at hg1
    exact hw hg1
  obtain ⟨x, tl, hx⟩ : ∃ x tl, s0 ++ c :: s = x :: tl := by
    cases s0 with
    | nil => exact ⟨c, s, rfl⟩
    | cons y s0 => exact ⟨y, s0 ++ c :: s, rfl⟩
  rw [hx] at hno ⊢
  rw [List.tail_cons, Glob_star_cons]
  exact ⟨fun h => h.resolve_left hno, fun h => Or.inr h⟩

theorem wildLoop_backtrack (n : Nat) (w : List Char) (c : Char) (s mp cp : List Char)
    (hw : ∀ p w', w = p :: w' → p ≠ '*' ∧ ¬ charFits p c) :
    wildLoop (n + 1) w (c :: s) (some (mp, cp)) = wildLoop n mp cp (some (mp, cp.tail)) := by
  cases w with
  | nil => simp [wildLoop]
  | cons p w' =>
    obtain ⟨h1, h2⟩ := hw p w' rfl
    have h3 : ¬ (p = c ∨ p = '?') := h2
    simp [wildLoop, h1, h3]

theorem wildLoop_spec : ∀ (fuel : Nat) (w s q s0 : List Char), (∀ p ∈ q, p ≠ '*') →
    List.Forall₂ charFits q s0 →
    (s0.length + s.length + 1) * (q.length + w.length + (s0.length + s.length) + 4)
      + (w.length + s.length) + 1 ≤ fuel →
    ∃ b, wildLoop fuel w s (some (q ++ w, (s0 ++ s).tail)) = some b
      ∧ (b = true ↔ Glob ('*' :: (q ++ w)) (s0 ++ s)) := by
  intro fuel
  induction fuel with
  | zero => intro w s q s0 _ _ h; omega
  | succ n ih =>
    intro w s q s0 hq hpm hfuel
    have hbt : ∀ (c : Char) (s' : List Char), s = c :: s' → ¬ Glob w (c :: s') →
        ∃ b, wildLoop n (q ++ w) (s0 ++ s).tail (some (q ++ w, (s0 ++ s).tail.tail)) = some b
          ∧ (b = true ↔ Glob ('*' :: (q ++ w)) (s0 ++ s)) := by
      intro c s' hs hno
      subst hs
      have hlen : (s0 ++ c :: s').tail.length = s0.length + s'.length := by simp
      have harith : (0 + (s0 ++ c :: s').tail.length + 1)
          * (0 + (q ++ w).length + (0 + (s0 ++ c :: s').tail.length) + 4)
          + ((q ++ w).length + (s0 ++ c :: s').tail.length) + 1 ≤ n := by
        rw [hlen]
        simp only [List.length_append, List.length_cons] at hfuel ⊢
        have e : (s0.length + (s'.length + 1) + 1)
              * (q.length + w.length + (s0.length + (s'.length + 1)) + 4)
            = (0 + (s0.length + s'.length) + 1)
              * (0 + (q.length + w.length) + (0 + (s0.length + s'.length)) + 4)
              + (s0.length + s'.length + 1) + (q.length + w.length + s0.length + s'.length + 5) := by
          ring
        omega
      obtain ⟨b, hb, hiff⟩ := ih (q ++ w) (s0 ++ c :: s').tail [] [] (by simp)
        List.Forall₂.nil (by simpa using harith)
      refine ⟨b, by simpa using hb, ?_⟩
      rw [hiff, Glob_backtrack q w s0 c s' hq hpm hno]
      simp
    cases s with
    | nil =>
      refine ⟨wildTail w, by cases w <;> simp [wildLoop], ?_⟩
      rw [List.append_nil, wildTail_iff, Glob_end q w s0 hq hpm]
    | cons c s' =>
      cases w with
      | nil =>
        rw [wildLoop_backtrack n [] c s' _ _ (by intro p w' h; cases h)]
        exact hbt c s' rfl (by simp [Glob])
      | cons p w' =>
        by_cases hp : p = '*'
        · subst hp
          by_cases hw' : w' = []
          · subst hw'
            refine ⟨true, by simp [wildLoop], ?_⟩
            simp only [true_iff]
            rw [Glob_commit q [] s0 (c :: s') hq hpm, Glob_star]
            exact ⟨[], List.nil_suffix, by simp [Glob]⟩
          · have harith : (0 + (c :: s').length + 1)
                * (0 + w'.length + (0 + (c :: s').length) + 4)
                + (w'.length + (c :: s').length) + 1 ≤ n := by
              simp only [List.length_cons] at hfuel ⊢
              have : (0 + (s'.length + 1) + 1) * (0 + w'.length + (0 + (s'.length + 1)) + 4)
                  ≤ (s0.length + (s'.length + 1) + 1)
                    * (q.length + (w'.length + 1) + (s0.length + (s'.length + 1)) + 4) :=
                Nat.mul_le_mul (by omega) (by omega)
              omega
            obtain ⟨b, hb, hiff⟩ := ih w' (c :: s') [] [] (by simp) List.Forall₂.nil
              (by simpa using harith)
            refine ⟨b, ?_, ?_⟩
            · simpa [wildLoop, hw'] using hb
            · rw [hiff, Glob_commit q w' s0 (c :: s') hq hpm]
              simp
        · by_cases hf : charFits p c
          · have hq2 : ∀ x ∈ q ++ [p], x ≠ '*' := by
              intro x hx
              rcases List.mem_append.mp hx with h | h
              · exact hq x h
              · have : x = p := by simpa using h
                rw [this]; exact hp
            have hpm2 : List.Forall₂ charFits (q ++ [p]) (s0 ++ [c]) :=
              List.rel_append hpm (List.Forall₂.cons hf List.Forall₂.nil)
            have harith : ((s0 ++ [c]).length + s'.length + 1)
                * ((q ++ [p]).length + w'.length + ((s0 ++ [c]).length + s'.length) + 4)
                + (w'.length + s'.length) + 1 ≤ n := by
              simp only [List.length_append, List.length_cons, List.length_nil] at hfuel ⊢
              have e : (s0.length + (0 + 1) + s'.length + 1)
                    * (q.length + (0 + 1) + w'.length + (s0.length + (0 + 1) + s'.length) + 4)
                  = (s0.length + (s'.length + 1) + 1)
                    * (q.length + (w'.length + 1) + (s0.length + (s'.length + 1)) + 4) := by
                ring
              omega
            obtain ⟨b, hb, hiff⟩ := ih w' s' (q ++ [p]) (s0 ++ [c]) hq2 hpm2 harith
            have hf2 : p = c ∨ p = '?' := hf
            refine ⟨b, ?_, ?_⟩
            · simpa [wildLoop, hp, hf2] using hb
            · simpa using hiff
          · rw [wildLoop_backtrack n (p :: w') c s' _ _
              (by intro p2 w2 h; cases h; exact ⟨hp, hf⟩)]
            refine hbt c s' rfl ?_
            rw [Glob_cons_cons p c w' s' hp]
            exact fun h => hf h.1

theorem wildRun_spec (W S : List Char) :
    ∃ b, (match wildHead W S with
        | none => some false
        | some (w, s) => wildLoop (wildFuel W.length S.length) w s none) = some b
      ∧ (b = true ↔ Glob W S) := by
  have hspec := wildHead_spec S W
  revert hspec
  cases wildHead W S with
  | none =>
    intro h
    exact ⟨false, rfl, by simpa using h⟩
  | some ws =>
    obtain ⟨w, s⟩ := ws
    intro h
    simp only at h ⊢
    obtain ⟨h1, h2, h3, h4⟩ := h
    obtain ⟨n, hn⟩ : ∃ n, wildFuel W.length S.length = n + 1 := ⟨_, rfl⟩
    rw [hn]
    cases s with
    | nil =>
      refine ⟨wildTail w, by cases w <;> simp [wildLoop], ?_⟩
      rw [wildTail_iff, h1]
    | cons c s' =>
      rcases h2 with h2 | ⟨w', rfl⟩
      · cases h2
      · by_cases hw' : w' = []
        · subst hw'
          refine ⟨true, by simp [wildLoop], ?_⟩
          simp only [true_iff]
          rw [h1, Glob_star]
          exact ⟨[], List.nil_suffix, by simp [Glob]⟩
        · have harith : (0 + (c :: s').length + 1)
              * (0 + w'.length + (0 + (c :: s').length) + 4)
              + (w'.length + (c :: s').length) + 1 ≤ n := by
            simp only [wildFuel] at hn
            simp only [List.length_cons] at h3 h4 ⊢
            have : (0 + (s'.length + 1) + 1) * (0 + w'.length + (0 + (s'.length + 1)) + 4)
                ≤ (S.length + 1) * (W.length + S.length + 4) :=
              Nat.mul_le_mul (by omega) (by omega)
            omega
          obtain ⟨b, hb, hiff⟩ := wildLoop_spec n w' (c :: s') [] [] (by simp)
            List.Forall₂.nil harith
          refine ⟨b, ?_, ?_⟩
          · simpa [wildLoop, hw'] using hb
          · rw [h1, hiff]
            simp

theorem WildMatches_iff_Glob (pattern : List Char) : ∀ subject : List Char,
    WildMatches pattern subject ↔ Glob (pattern.map tolower) (subject.map tolower) := by
  induction pattern with
  | nil =>
    intro subject
    constructor
    · rintro ⟨pieces, hf, hfl⟩
      cases hf
      subst hfl
      simp [Glob]
    · intro h
      have : subject = [] := by simpa [Glob] using h
      subst this
      exact ⟨[], List.Forall₂.nil, rfl⟩
  | cons p w ih =>
    intro subject
    by_cases hp : p = '*'
    · subst hp
      have hl : tolower '*' = '*' := by decide
      rw [List.map_cons, hl, Glob_star]
      constructor
      · rintro ⟨pieces, hf, hfl⟩
        cases hf with
        | cons h1 h2 =>
          rename_i piece rest
          subst hfl
          refine ⟨rest.flatten.map tolower, ?_, (ih _).mp ⟨rest, h2, rfl⟩⟩
          rw [List.flatten_cons, List.map_append]
          exact List.suffix_append _ _
      · rintro ⟨t, ⟨u, hu⟩, hg⟩
        obtain ⟨a, b, hab, _, hb⟩ := List.map_eq_append_iff.mp hu.symm
        subst hab
        subst hb
        obtain ⟨rest, hf, hfl⟩ := (ih b).mpr hg
        refine ⟨a :: rest, List.Forall₂.cons (by simp [pieceFits]) hf, ?_⟩
        rw [List.flatten_cons, hfl]
    · have hlp : tolower p ≠ '*' := fun h => hp ((tolower_eq_star p).mp h)
      rw [List.map_cons, Glob_cons _ _ _ hlp]
      constructor
      · rintro ⟨pieces, hf, hfl⟩
        cases hf with
        | cons h1 h2 =>
          rename_i piece rest
          subst hfl
          have hone : ∃ c, piece = [c] ∧ charFits (tolower p) (tolower c) := by
            unfold pieceFits at h1
            rw [if_neg hp] at h1
            by_cases hq : p = '?'
            · rw [if_pos hq] at h1
              obtain ⟨c, hc⟩ := h1
              exact ⟨c, hc, Or.inr ((tolower_eq_qmark p).mpr hq)⟩
            · rw [if_neg hq] at h1
              obtain ⟨c, hc, hcl⟩ := h1
              exact ⟨c, hc, Or.inl hcl.symm⟩
          obtain ⟨c, rfl, hfit⟩ := hone
          exact ⟨tolower c, rest.flatten.map tolower, by simp, hfit,
            (ih _).mp ⟨rest, h2, rfl⟩⟩
      · rintro ⟨c, s', hs, hfit, hg⟩
        cases subject with
        | nil => simp at hs
        | cons c0 s0 =>
          rw [List.map_cons] at hs
          obtain ⟨hc, hs0⟩ := List.cons.inj hs
          subst hc
          subst hs0
          obtain ⟨rest, hf, hfl⟩ := (ih s0).mpr hg
          refine ⟨[c0] :: rest, List.Forall₂.cons ?_ hf, by simp [hfl]⟩
          unfold pieceFits
          rw [if_neg hp]
          by_cases hq : p = '?'
          · rw [if_pos hq]; exact ⟨c0, rfl⟩
          · rw [if_neg hq]
            refine ⟨c0, rfl, ?_⟩
            rcases hfit with h | h
            · exact h.symm
            · exact absurd ((tolower_eq_qmark p).mp h) hq

theorem WildCmpRun_spec (sWild sString : CString) :
    ∃ b, WildCmpRun sWild sString = some b
      ∧ (b = true ↔ WildMatches (c_str sWild) (c_str sString)) := by
  obtain ⟨b, hb, hiff⟩ := wildRun_spec (c_str (AsLower sWild)) (c_str (AsLower sString))
  refine ⟨b, hb, ?_⟩
  rw [hiff, c_str_AsLower, c_str_AsLower, WildMatches_iff_Glob]

/-- C10 (amended). Each case-insensitive `WildCmp` call returns a value, and it succeeds
exactly when the subject, read up to its first NUL char, can be split into consecutive
pieces, one for each char of the pattern read up to its first NUL char, where `*` takes
any run of zero or more chars, `?` exactly one char, and any other pattern char exactly
one char equal to it up to letter case. For a pattern and a subject without a NUL char
this is the split of the whole subject along the whole pattern, so the pattern is
anchored to the entire subject. -/
theorem WildCmp_iff_pieces (sString sWild : CString) :
    (∃ b, WildCmpRun sWild sString = some b)
    ∧ (WildCmp sString sWild = true ↔ WildMatches (c_str sWild) (c_str sString))
    ∧ ((∀ c ∈ sWild, c ≠ '\x00') → (∀ c ∈ sString, c ≠ '\x00') →
        (WildCmp sString sWild = true ↔ WildMatches sWild sString)) := by
  obtain ⟨b, hb, hiff⟩ := WildCmpRun_spec sWild sString
  have hmain : WildCmp sString sWild = true ↔ WildMatches (c_str sWild) (c_str sString) := by
    rw [← hiff]
    simp [WildCmp, hb]
  refine ⟨⟨b, hb⟩, hmain, ?_⟩
  intro hw hs
  rw [hmain, c_str_eq_self _ hw, c_str_eq_self _ hs]

/-- C10, counterexample: the pattern `a` does not split the three-char subject `a`, NUL,
`b`, yet the comparison succeeds, because it reads the subject up to the NUL only. -/
theorem WildCmp_stops_at_nul :
    WildCmp ['a', '\x00', 'b'] ['a'] = true
    ∧ ¬ WildMatches ['a'] ['a', '\x00', 'b'] := by
  refine ⟨by decide, ?_⟩
  rintro ⟨pieces, hf, hfl⟩
  cases hf with
  | cons h1 h2 =>
    cases h2
    have hstar : ('a' : Char) ≠ '*' := by decide
    have hq : ('a' : Char) ≠ '?' := by decide
    unfold pieceFits at h1
    rw [if_neg hstar, if_neg hq] at h1
    obtain ⟨c, rfl, _⟩ := h1
    simp at hfl

/-! ## Message evaluation: frame, wrap and persistence -/

theorem WildCmp_eq_true_iff (sString sWild : CString) :
    WildCmp sString sWild = true ↔ WildMatches (c_str sWild) (c_str sString) := by
  obtain ⟨b, hb, hiff⟩ := WildCmpRun_spec sWild sString
  rw [← hiff]
  simp [WildCmp, hb]

theorem WildCmp_star (s : CString) : WildCmp s ['*'] = true := by
  rw [WildCmp_eq_true_iff]
  have hc : c_str ['*'] = ['*'] := by decide
  rw [hc]
  exact ⟨[c_str s], List.Forall₂.cons (by simp [pieceFits]) List.Forall₂.nil, by simp⟩

theorem Save_filters (m : CMyFilter) :
    (Save m).filters = some (savedBlob m.entries) ∧ (Save m).entries = m.entries :=
  ⟨rfl, rfl⟩

/-- C20. When no entry matches the message, `OnChanTextMessage` returns `CONTINUE` and
leaves the whole object as it was: the same entries in the same order with the same
patterns and hit counts (and the same stored value). -/
theorem OnChanTextMessage_no_match (chan nick text : CString) (m : CMyFilter)
    (h : ∀ e ∈ m.entries, entryMatches chan nick text e = false) :
    OnChanTextMessage chan nick text m = (EModRet.CONTINUE, m)
    ∧ (OnChanTextMessage chan nick text m).2.entries = m.entries := by
  have h1 : OnChanTextMessage chan nick text m = (EModRet.CONTINUE, m) := by
    simp only [OnChanTextMessage, matchLoop_no_match chan nick text m.entries h]
  exact ⟨h1, by rw [h1]⟩

/-- C20, witness: the scenario list `[("#chan", "*", "*spam*")]` and a message on
`#other`; the entry matches the nick and the text but not the channel. -/
theorem OnChanTextMessage_no_match_witness :
    OnChanTextMessage "#other".toList "bob".toList "buy spam now".toList
        ⟨[⟨"#chan".toList, "*".toList, "*spam*".toList, 5⟩], none⟩
      = (EModRet.CONTINUE, ⟨[⟨"#chan".toList, "*".toList, "*spam*".toList, 5⟩], none⟩) :=
  (OnChanTextMessage_no_match "#other".toList "bob".toList "buy spam now".toList
    ⟨[⟨"#chan".toList, "*".toList, "*spam*".toList, 5⟩], none⟩ (by decide)).1

theorem matchLoop_hits_le (chan nick text : CString) (es : List Entry)
    (h : ∀ e, es.find? (entryMatches chan nick text) = some e → e.hits < ULONG_MAX) :
    List.Forall₂ (fun a b => a.hits ≤ b.hits) es (matchLoop chan nick text es).2 := by
  have hrefl : ∀ l : List Entry, List.Forall₂ (fun a b : Entry => a.hits ≤ b.hits) l l := by
    intro l
    induction l with
    | nil => exact List.Forall₂.nil
    | cons x l ih => exact List.Forall₂.cons (Nat.le_refl _) ih
  induction es with
  | nil => exact List.Forall₂.nil
  | cons x es ih =>
    by_cases hx : entryMatches chan nick text x = true
    · have hlt : x.hits < ULONG_MAX := h x (by simp [List.find?, hx])
      have hmod : (x.hits + 1) % ULONG_RANGE = x.hits + 1 := by
        apply Nat.mod_eq_of_lt
        simp only [ULONG_MAX, ULONG_RANGE] at hlt ⊢
        omega
      simp only [matchLoop, hx, if_true]
      exact List.Forall₂.cons (by simp [hmod]) (hrefl es)
    · have hx2 : entryMatches chan nick text x = false := by simpa using hx
      simp only [matchLoop, hx2, Bool.false_eq_true, if_false]
      refine List.Forall₂.cons (Nat.le_refl _) (ih ?_)
      intro e he
      exact h e (by simpa [List.find?, hx2] using he)

/-- C16 (amended). Unless the first entry that matches the message has the hit count
`2 ^ 64 - 1`, every entry's hit count after `OnChanTextMessage` is at least its hit
count before the call (entry by entry, in vector order). -/
theorem OnChanTextMessage_hits_monotone (chan nick text : CString) (m : CMyFilter)
    (h : ∀ e, m.entries.find? (entryMatches chan nick text) = some e → e.hits < ULONG_MAX) :
    List.Forall₂ (fun a b => a.hits ≤ b.hits) m.entries
      (OnChanTextMessage chan nick text m).2.entries :=
  matchLoop_hits_le chan nick text m.entries h

/-- C16, witness: two matching entries, the first with 41 hits. -/
theorem OnChanTextMessage_hits_monotone_witness :
    List.Forall₂ (fun a b => a.hits ≤ b.hits)
      [(⟨"#chan".toList, "*".toList, "*spam*".toList, 41⟩ : Entry),
        ⟨"*".toList, "*".toList, "*".toList, 18446744073709551615⟩]
      (OnChanTextMessage "#chan".toList "bob".toList "buy spam now".toList
        ⟨[⟨"#chan".toList, "*".toList, "*spam*".toList, 41⟩,
          ⟨"*".toList, "*".toList, "*".toList, 18446744073709551615⟩], none⟩).2.entries :=
  OnChanTextMessage_hits_monotone "#chan".toList "bob".toList "buy spam now".toList
    ⟨[⟨"#chan".toList, "*".toList, "*spam*".toList, 41⟩,
      ⟨"*".toList, "*".toList, "*".toList, 18446744073709551615⟩], none⟩
    (by
      intro e he
      have h0 : (⟨"#chan".toList, "*".toList, "*spam*".toList, 41⟩ : Entry) = e :=
        Option.some.inj ((by decide : List.find?
          (entryMatches "#chan".toList "bob".toList "buy spam now".toList)
          [(⟨"#chan".toList, "*".toList, "*spam*".toList, 41⟩ : Entry),
            ⟨"*".toList, "*".toList, "*".toList, 18446744073709551615⟩]
          = some ⟨"#chan".toList, "*".toList, "*spam*".toList, 41⟩).symm.trans he)
      rw [← h0]
      decide)

/-- C16, counterexample: the second entry is the first that matches and holds
`2 ^ 64 - 1` hits; after the call it holds 0 hits, fewer than before. -/
theorem OnChanTextMessage_hits_decrease :
    (OnChanTextMessage "#chan".toList "bob".toList "hello".toList
        ⟨[⟨"#other".toList, "*".toList, "*".toList, 3⟩,
          ⟨"#chan".toList, "*".toList, "*".toList, 18446744073709551615⟩], none⟩).2.entries
      = [⟨"#other".toList, "*".toList, "*".toList, 3⟩,
          ⟨"#chan".toList, "*".toList, "*".toList, 0⟩]
    ∧ ¬ List.Forall₂ (fun a b => a.hits ≤ b.hits)
        [(⟨"#other".toList, "*".toList, "*".toList, 3⟩ : Entry),
          ⟨"#chan".toList, "*".toList, "*".toList, 18446744073709551615⟩]
        (OnChanTextMessage "#chan".toList "bob".toList "hello".toList
          ⟨[⟨"#other".toList, "*".toList, "*".toList, 3⟩,
            ⟨"#chan".toList, "*".toList, "*".toList, 18446744073709551615⟩], none⟩).2.entries := by
  have h : (OnChanTextMessage "#chan".toList "bob".toList "hello".toList
        ⟨[⟨"#other".toList, "*".toList, "*".toList, 3⟩,
          ⟨"#chan".toList, "*".toList, "*".toList, 18446744073709551615⟩], none⟩).2.entries
      = [⟨"#other".toList, "*".toList, "*".toList, 3⟩,
          ⟨"#chan".toList, "*".toList, "*".toList, 0⟩] := by decide
  refine ⟨h, ?_⟩
  rw [h]
  intro hf
  cases hf with
  | cons _ h2 =>
    cases h2 with
    | cons h3 _ => exact absurd h3 (by decide)

/-- C14 (amended). After `add` and after `del` the value stored under "Filters" is the
serialization of the vector as it is after the command. A message evaluation does not
write: `OnChanTextMessage` leaves the stored value as it was, also when it increments a
hit count, so the stored value then still shows the count from before. -/
theorem persisted_after_mutation :
    (∀ (args : CString) (m : CMyFilter),
        (OnAddFilter args m).1.filters = some (savedBlob (OnAddFilter args m).1.entries))
    ∧ (∀ (args : CString) (m : CMyFilter),
        (OnDelFilter args m).1.filters = some (savedBlob (OnDelFilter args m).1.entries))
    ∧ (∀ (chan nick text : CString) (m : CMyFilter),
        (OnChanTextMessage chan nick text m).2.filters = m.filters) := by
  refine ⟨fun _ _ => rfl, ?_, fun _ _ _ _ => rfl⟩
  intro args m
  unfold OnDelFilter
  dsimp only
  split <;> rfl

/-- C14, counterexample: the stored value is the serialization of the one entry with 0
hits; a matching message makes the count 1, and the stored value still reads `* * 0 *`,
which is not the serialization of the vector after the call. -/
theorem OnChanTextMessage_not_persisted :
    (OnChanTextMessage "#c".toList "bob".toList "hi".toList
        ⟨[⟨"*".toList, "*".toList, "*".toList, 0⟩], some "* * 0 *".toList⟩).2.entries
      = [⟨"*".toList, "*".toList, "*".toList, 1⟩]
    ∧ (OnChanTextMessage "#c".toList "bob".toList "hi".toList
        ⟨[⟨"*".toList, "*".toList, "*".toList, 0⟩], some "* * 0 *".toList⟩).2.filters
      = some "* * 0 *".toList
    ∧ savedBlob (OnChanTextMessage "#c".toList "bob".toList "hi".toList
        ⟨[⟨"*".toList, "*".toList, "*".toList, 0⟩], some "* * 0 *".toList⟩).2.entries
      = "* * 1 *".toList
    ∧ (OnChanTextMessage "#c".toList "bob".toList "hi".toList
        ⟨[⟨"*".toList, "*".toList, "*".toList, 0⟩], some "* * 0 *".toList⟩).2.filters
      ≠ some (savedBlob (OnChanTextMessage "#c".toList "bob".toList "hi".toList
        ⟨[⟨"*".toList, "*".toList, "*".toList, 0⟩], some "* * 0 *".toList⟩).2.entries) := by
  decide

/-- C15. Each of `add`, `del` (index accepted or rejected), `list` and the unload hook ends
with the value stored under "Filters" equal to the serialization of the vector as it is
after the command, whatever was stored before; a rejected `del` and `list` leave the
vector as it was and so store the serialization of the unchanged vector. -/
theorem commands_persist (args : CString) (m : CMyFilter) :
    (OnAddFilter args m).1.filters = some (savedBlob (OnAddFilter args m).1.entries)
    ∧ (OnDelFilter args m).1.filters = some (savedBlob (OnDelFilter args m).1.entries)
    ∧ (OnListFilters m).1.filters = some (savedBlob (OnListFilters m).1.entries)
    ∧ (OnModuleUnloading m).1.filters = some (savedBlob (OnModuleUnloading m).1.entries)
    ∧ ((OnDelFilter args m).2 = "Bad index.".toList →
        (OnDelFilter args m).1.entries = m.entries
        ∧ (OnDelFilter args m).1.filters = some (savedBlob m.entries))
    ∧ (OnListFilters m).1.entries = m.entries
    ∧ (OnListFilters m).1.filters = some (savedBlob m.entries)
    ∧ (OnModuleUnloading m).1.entries = m.entries
    ∧ (OnModuleUnloading m).1.filters = some (savedBlob m.entries) := by
  have hdel : (OnDelFilter args m).1.filters
      = some (savedBlob (OnDelFilter args m).1.entries) := by
    unfold OnDelFilter
    dsimp only
    split <;> rfl
  have hlist : (OnListFilters m).1 = Save m := by
    unfold OnListFilters
    split <;> rfl
  refine ⟨rfl, hdel, by rw [hlist]; rfl, rfl, ?_, by rw [hlist]; rfl, by rw [hlist]; rfl,
    rfl, rfl⟩
  intro hbad
  have hent : (OnDelFilter args m).1.entries = m.entries := by
    unfold OnDelFilter at hbad ⊢
    dsimp only at hbad ⊢
    split
    · rename_i hi
      rw [if_pos hi] at hbad
      have hne : "Filter removed.".toList = "Bad index.".toList := hbad
      exact absurd hne (by decide)
    · rfl
  exact ⟨hent, by rw [hdel, hent]⟩

/-- C12 (amended). The pattern `*` matches every string, the empty string included: for
every channel, nick and text (text possibly empty), a vector whose first entry is
`("*", "*", "*")` makes `OnChanTextMessage` return `HALT`, and that first entry's hit
count is incremented as an `unsigned long`: it becomes `hits + 1` modulo `2 ^ 64`, which
is `hits + 1` unless the count was `2 ^ 64 - 1`. The other entries are kept. -/
theorem OnChanTextMessage_star_entry (chan nick text : CString) (hits : Nat)
    (rest : List Entry) (stored : Option CString) :
    OnChanTextMessage chan nick text ⟨⟨['*'], ['*'], ['*'], hits⟩ :: rest, stored⟩
      = (EModRet.HALT, ⟨⟨['*'], ['*'], ['*'], (hits + 1) % 2 ^ 64⟩ :: rest, stored⟩)
    ∧ (hits < ULONG_MAX → (hits + 1) % 2 ^ 64 = hits + 1)
    ∧ WildCmp [] ['*'] = true
    ∧ (∀ s : CString, WildCmp s ['*'] = true) := by
  refine ⟨?_, ?_, WildCmp_star [], WildCmp_star⟩
  · have hm : entryMatches chan nick text ⟨['*'], ['*'], ['*'], hits⟩ = true := by
      simp [entryMatches, WildCmp_star]
    simp [OnChanTextMessage, matchLoop, hm, ULONG_RANGE]
  · intro hlt
    apply Nat.mod_eq_of_lt
    simp only [ULONG_MAX] at hlt
    omega

/-- C12, counterexample: the first entry `("*", "*", "*")` holds `2 ^ 64 - 1` hits; a
message with an empty text is suppressed and the entry then holds 0 hits, so its count
did not go up. -/
theorem OnChanTextMessage_star_wrap :
    OnChanTextMessage "#x".toList "al".toList []
        ⟨[⟨"*".toList, "*".toList, "*".toList, 18446744073709551615⟩,
          ⟨"#x".toList, "al".toList, "".toList, 2⟩], none⟩
      = (EModRet.HALT, ⟨[⟨"*".toList, "*".toList, "*".toList, 0⟩,
          ⟨"#x".toList, "al".toList, "".toList, 2⟩], none⟩)
    ∧ ¬ (18446744073709551615 <
      ((OnChanTextMessage "#x".toList "al".toList []
        ⟨[⟨"*".toList, "*".toList, "*".toList, 18446744073709551615⟩,
          ⟨"#x".toList, "al".toList, "".toList, 2⟩], none⟩).2.entries.map Entry.hits).headD 0) := by
  decide

/-! ## Case insensitivity and the `?` wildcard -/

theorem caseSwap_tolower (c d : Char) (h : caseSwap c d) : tolower c = tolower d := by
  have key : ∀ a b : Char, 65 ≤ a.toNat → a.toNat ≤ 90 → b.toNat = a.toNat + 32 →
      tolower a = tolower b := by
    intro a b h1 h2 h3
    have ha : tolower a = Char.ofNat (a.toNat + 32) := by
      simp only [tolower, Char.toLower]
      rw [if_pos ⟨h1, h2⟩]
    have hb : tolower b = b := by
      simp only [tolower, Char.toLower]
      rw [if_neg]
      intro hh
      have := hh.2
      omega
    rw [ha, hb, ← h3, Char.ofNat_toNat]
  rcases h with h | ⟨h1, h2, h3⟩ | ⟨h1, h2, h3⟩
  · rw [h]
  · exact key c d h1 h2 h3
  · exact (key d c h1 h2 h3).symm

theorem caseVariant_AsLower (s t : CString) (h : caseVariant s t) : AsLower s = AsLower t := by
  unfold caseVariant at h
  induction h with
  | nil => rfl
  | cons hcd _ ih =>
    simp only [AsLower, List.map_cons] at ih ⊢
    rw [caseSwap_tolower _ _ hcd, ih]

theorem WildCmp_congr (s s' w w' : CString) (hs : AsLower s = AsLower s')
    (hw : AsLower w = AsLower w') : WildCmp s w = WildCmp s' w' := by
  simp only [WildCmp, WildCmpRun, hs, hw]

theorem entryMatches_congr (chan chan' nick nick' text text' : CString) (e e' : Entry)
    (hc : caseVariant chan chan') (hn : caseVariant nick nick') (ht : caseVariant text text')
    (he : entryCaseVariant e e') :
    entryMatches chan nick text e = entryMatches chan' nick' text' e' := by
  obtain ⟨h1, h2, h3, _⟩ := he
  simp only [entryMatches]
  rw [WildCmp_congr chan chan' _ _ (caseVariant_AsLower _ _ hc) (caseVariant_AsLower _ _ h1),
    WildCmp_congr nick nick' _ _ (caseVariant_AsLower _ _ hn) (caseVariant_AsLower _ _ h2),
    WildCmp_congr text text' _ _ (caseVariant_AsLower _ _ ht) (caseVariant_AsLower _ _ h3)]

theorem matchLoop_congr (chan chan' nick nick' text text' : CString)
    (hc : caseVariant chan chan') (hn : caseVariant nick nick') (ht : caseVariant text text')
    (es es' : List Entry) (he : List.Forall₂ entryCaseVariant es es') :
    (matchLoop chan nick text es).1 = (matchLoop chan' nick' text' es').1
    ∧ es.map (entryMatches chan nick text) = es'.map (entryMatches chan' nick' text')
    ∧ List.Forall₂ entryCaseVariant (matchLoop chan nick text es).2
        (matchLoop chan' nick' text' es').2 := by
  induction he with
  | nil => exact ⟨rfl, rfl, List.Forall₂.nil⟩
  | cons hxy hrest ih =>
    rename_i x y xs ys
    obtain ⟨ih1, ih2, ih3⟩ := ih
    have hm := entryMatches_congr chan chan' nick nick' text text' x y hc hn ht hxy
    refine ⟨?_, by simp [hm, ih2], ?_⟩
    · simp only [matchLoop, hm]
      split
      · rfl
      · exact ih1
    · simp only [matchLoop, hm]
      split
      · refine List.Forall₂.cons ?_ hrest
        obtain ⟨h1, h2, h3, h4⟩ := hxy
        exact ⟨h1, h2, h3, by simp [h4]⟩
      · exact List.Forall₂.cons hxy ih3

theorem OnChanTextMessage_head_match (chan nick text : CString) (e : Entry)
    (rest : List Entry) (stored : Option CString)
    (h : entryMatches chan nick text e = true) :
    (OnChanTextMessage chan nick text ⟨e :: rest, stored⟩).1 = EModRet.HALT := by
  simp [OnChanTextMessage, matchLoop, h]

theorem OnChanTextMessage_single_no_match (chan nick text : CString) (e : Entry)
    (stored : Option CString) (h : entryMatches chan nick text e = false) :
    (OnChanTextMessage chan nick text ⟨[e], stored⟩).1 = EModRet.CONTINUE := by
  simp [OnChanTextMessage, matchLoop, h]

theorem entryMatches_star_star (chan nick text pat : CString) (hits : Nat) :
    entryMatches chan nick text ⟨['*'], ['*'], pat, hits⟩ = WildCmp text pat := by
  simp [entryMatches, WildCmp_star]

/-- C11. `OnChanTextMessage` is case-insensitive: when the channel, the nick, the text and
the three patterns of every entry are replaced by strings that differ from them at most
in the case of ASCII letters (hit counts kept), the verdict is the same, the same
positions of the vector match, and the vectors after the call again differ at most in
the case of pattern letters, with equal hit counts, so the same entry was incremented.
In particular an entry `("#Foo", "*", "*")` at the front suppresses every message on
channel `#foo`. -/
theorem OnChanTextMessage_case_insensitive (chan chan' nick nick' text text' : CString)
    (m m' : CMyFilter) (hc : caseVariant chan chan') (hn : caseVariant nick nick')
    (ht : caseVariant text text') (he : List.Forall₂ entryCaseVariant m.entries m'.entries) :
    (OnChanTextMessage chan nick text m).1 = (OnChanTextMessage chan' nick' text' m').1
    ∧ m.entries.map (entryMatches chan nick text)
        = m'.entries.map (entryMatches chan' nick' text')
    ∧ List.Forall₂ entryCaseVariant (OnChanTextMessage chan nick text m).2.entries
        (OnChanTextMessage chan' nick' text' m').2.entries
    ∧ (∀ (nick text : CString) (hits : Nat) (rest : List Entry) (stored : Option CString),
        (OnChanTextMessage "#foo".toList nick text
          ⟨⟨"#Foo".toList, ['*'], ['*'], hits⟩ :: rest, stored⟩).1 = EModRet.HALT) := by
  obtain ⟨h1, h2, h3⟩ := matchLoop_congr chan chan' nick nick' text text' hc hn ht _ _ he
  refine ⟨h1, h2, h3, ?_⟩
  intro nick text hits rest stored
  have hfoo : WildCmp "#foo".toList "#Foo".toList = true := by decide
  apply OnChanTextMessage_head_match
  unfold entryMatches
  rw [hfoo, WildCmp_star, WildCmp_star]
  rfl

/-- C11, witness: the message `("#foo", "Bob", "BUY now")` against the entry
`("#Foo", "b*", "buy*")` has the verdict of the all-lower-case message against the
all-lower-case entry, which is `HALT`. -/
theorem OnChanTextMessage_case_insensitive_witness :
    (OnChanTextMessage "#foo".toList "Bob".toList "BUY now".toList
        ⟨[⟨"#Foo".toList, "b*".toList, "buy*".toList, 3⟩], none⟩).1 = EModRet.HALT := by
  have hup : ∀ a b : Char, 65 ≤ a.toNat ∧ a.toNat ≤ 90 ∧ b.toNat = a.toNat + 32 →
      caseSwap a b := fun a b h => Or.inr (Or.inl h)
  have hid : ∀ s : CString, caseVariant s s := by
    intro s
    induction s with
    | nil => exact List.Forall₂.nil
    | cons c s ih => exact List.Forall₂.cons (Or.inl rfl) ih
  have hchan : caseVariant "#foo".toList "#foo".toList := hid _
  have hnick : caseVariant "Bob".toList "bob".toList :=
    List.Forall₂.cons (hup 'B' 'b' (by decide)) (hid "ob".toList)
  have htext : caseVariant "BUY now".toList "buy now".toList :=
    List.Forall₂.cons (hup 'B' 'b' (by decide))
      (List.Forall₂.cons (hup 'U' 'u' (by decide))
        (List.Forall₂.cons (hup 'Y' 'y' (by decide)) (hid " now".toList)))
  have hpat : caseVariant "#Foo".toList "#foo".toList :=
    List.Forall₂.cons (Or.inl rfl) (List.Forall₂.cons (hup 'F' 'f' (by decide)) (hid "oo".toList))
  have hent : List.Forall₂ entryCaseVariant
      (CMyFilter.mk [⟨"#Foo".toList, "b*".toList, "buy*".toList, 3⟩] none).entries
      (CMyFilter.mk [⟨"#foo".toList, "b*".toList, "buy*".toList, 3⟩] none).entries :=
    List.Forall₂.cons ⟨hpat, hid _, hid _, rfl⟩ List.Forall₂.nil
  have h := (OnChanTextMessage_case_insensitive "#foo".toList "#foo".toList "Bob".toList
    "bob".toList "BUY now".toList "buy now".toList _ _ hchan hnick htext hent).1
  rw [h]
  decide

theorem c_str_three (x : Char) (hx : x ≠ '\x00') : c_str ['a', x, 'c'] = ['a', x, 'c'] := by
  apply c_str_eq_self
  intro c hc
  simp only [List.mem_cons, List.mem_singleton] at hc
  rcases hc with rfl | rfl | rfl | hc
  · decide
  · exact hx
  · decide
  · cases hc

theorem WildCmp_qmark (x : Char) (hx : x ≠ '\x00') :
    WildCmp ['a', x, 'c'] "a?c".toList = true := by
  rw [WildCmp_eq_true_iff, c_str_three x hx]
  have hc : c_str "a?c".toList = ['a', '?', 'c'] := by decide
  rw [hc]
  refine ⟨[['a'], [x], ['c']], ?_, rfl⟩
  refine List.Forall₂.cons ?_ (List.Forall₂.cons ?_ (List.Forall₂.cons ?_ List.Forall₂.nil))
  · have h1 : ('a' : Char) ≠ '*' := by decide
    have h2 : ('a' : Char) ≠ '?' := by decide
    unfold pieceFits
    rw [if_neg h1, if_neg h2]
    exact ⟨'a', rfl, rfl⟩
  · have h1 : ('?' : Char) ≠ '*' := by decide
    unfold pieceFits
    rw [if_neg h1, if_pos rfl]
    exact ⟨x, rfl⟩
  · have h1 : ('c' : Char) ≠ '*' := by decide
    have h2 : ('c' : Char) ≠ '?' := by decide
    unfold pieceFits
    rw [if_neg h1, if_neg h2]
    exact ⟨'c', rfl, rfl⟩

/-- C13 (amended). `?` takes exactly one char: for the one-entry vector
`[("*", "*", "a?c")]` and every channel and nick, `OnChanTextMessage` returns `HALT` on a
text made of `a`, any one char other than NUL, and `c` (for example `abc`), and returns
`CONTINUE` on the texts `ac` and `abbc`. -/
theorem OnChanTextMessage_qmark (chan nick : CString) (x : Char) (hits : Nat)
    (stored : Option CString) (hx : x ≠ '\x00') :
    (OnChanTextMessage chan nick ['a', x, 'c']
        ⟨[⟨['*'], ['*'], "a?c".toList, hits⟩], stored⟩).1 = EModRet.HALT
    ∧ (OnChanTextMessage chan nick "abc".toList
        ⟨[⟨['*'], ['*'], "a?c".toList, hits⟩], stored⟩).1 = EModRet.HALT
    ∧ (OnChanTextMessage chan nick "ac".toList
        ⟨[⟨['*'], ['*'], "a?c".toList, hits⟩], stored⟩).1 = EModRet.CONTINUE
    ∧ (OnChanTextMessage chan nick "abbc".toList
        ⟨[⟨['*'], ['*'], "a?c".toList, hits⟩], stored⟩).1 = EModRet.CONTINUE := by
  have h1 : WildCmp "abc".toList "a?c".toList = true := by decide
  have h2 : WildCmp "ac".toList "a?c".toList = false := by decide
  have h3 : WildCmp "abbc".toList "a?c".toList = false := by decide
  refine ⟨?_, ?_, ?_, ?_⟩
  · apply OnChanTextMessage_head_match
    rw [entryMatches_star_star, WildCmp_qmark x hx]
  · apply OnChanTextMessage_head_match
    rw [entryMatches_star_star, h1]
  · apply OnChanTextMessage_single_no_match
    rw [entryMatches_star_star, h2]
  · apply OnChanTextMessage_single_no_match
    rw [entryMatches_star_star, h3]

/-- C13, witness: the text `a-c` on channel `#chan` from `bob`. -/
theorem OnChanTextMessage_qmark_witness :
    (OnChanTextMessage "#chan".toList "bob".toList ['a', '-', 'c']
        ⟨[⟨['*'], ['*'], "a?c".toList, 0⟩], none⟩).1 = EModRet.HALT :=
  (OnChanTextMessage_qmark "#chan".toList "bob".toList '-' 0 none (by decide)).1

/-- C13, counterexample: the text made of `a`, the NUL char and `c` is `a` followed by
one char followed by `c`, and it is not suppressed: the comparison reads the text up to
the NUL only. -/
theorem OnChanTextMessage_qmark_nul :
    (OnChanTextMessage "#chan".toList "bob".toList ['a', '\x00', 'c']
        ⟨[⟨['*'], ['*'], "a?c".toList, 0⟩], none⟩).1 = EModRet.CONTINUE
    ∧ ['a', '\x00', 'c'] = ['a'] ++ ['\x00'] ++ ['c'] := by
  decide

/-! ## The `add` command line, the `list` report, restart -/

/-- C17. The entry appended by `OnAddFilter` has as channel pattern the first
space-separated token after the command name (token 1 of the line), as nick pattern the
second (token 2), and as text pattern everything from the start of token 3 to the end of
the line, kept as one string with the spaces inside it; a missing token gives the empty
string. -/
theorem OnAddFilter_fields (args : CString) (m : CMyFilter) :
    ∃ text : CString,
      (OnAddFilter args m).1.entries
        = m.entries ++ [⟨(spaceTokens args).getD 1 [], (spaceTokens args).getD 2 [], text, 0⟩]
      ∧ ((spaceTokens args).length ≤ 3 → text = [])
      ∧ (3 < (spaceTokens args).length →
          (spaceTokens args).getD 3 [] <+: text
          ∧ ∃ pre, args = pre ++ text ∧ spaceTokens pre = (spaceTokens args).take 3) := by
  refine ⟨Token 3 true args, ?_, (Token_rest_spec 3 args).1, (Token_rest_spec 3 args).2⟩
  simp only [OnAddFilter, Save, Token_eq_spaceTokens]

theorem listRow_step (R : List (List CString)) (e : Entry) :
    listRow ⟨["Channel".toList, "Nickname".toList, "Hits".toList, "Message".toList], R⟩ e
      = ⟨["Channel".toList, "Nickname".toList, "Hits".toList, "Message".toList],
          R ++ [[e.chanPattern, e.nickPattern, ofULong e.hits, e.textPattern]]⟩ := by
  have hne : ["Channel".toList, "Nickname".toList, "Hits".toList, "Message".toList] ≠ [] := by
    decide
  have i0 : ["Channel".toList, "Nickname".toList, "Hits".toList, "Message".toList].indexOf
      "Channel".toList = 0 := by decide
  have i1 : ["Channel".toList, "Nickname".toList, "Hits".toList, "Message".toList].indexOf
      "Nickname".toList = 1 := by decide
  have i2 : ["Channel".toList, "Nickname".toList, "Hits".toList, "Message".toList].indexOf
      "Hits".toList = 2 := by decide
  have i3 : ["Channel".toList, "Nickname".toList, "Hits".toList, "Message".toList].indexOf
      "Message".toList = 3 := by decide
  have hset : ∀ (R : List (List CString)) (row : List CString) (col v : CString) (i : Nat),
      ["Channel".toList, "Nickname".toList, "Hits".toList, "Message".toList].indexOf col = i →
      i < 4 →
      CTable.SetCell ⟨["Channel".toList, "Nickname".toList, "Hits".toList, "Message".toList],
          R ++ [row]⟩ col v
        = ⟨["Channel".toList, "Nickname".toList, "Hits".toList, "Message".toList],
            R ++ [row.set i v]⟩ := by
    intro R row col v i hi hlt
    have hl : (R ++ [row]).getLast? = some row := by simp
    have hlen : ["Channel".toList, "Nickname".toList, "Hits".toList, "Message".toList].length
        = 4 := rfl
    unfold CTable.SetCell
    simp only [hl, hi, hlen, if_pos hlt, List.dropLast_concat]
  have hadd : CTable.AddRow
      ⟨["Channel".toList, "Nickname".toList, "Hits".toList, "Message".toList], R⟩
      = ⟨["Channel".toList, "Nickname".toList, "Hits".toList, "Message".toList],
          R ++ [[[], [], [], []]]⟩ := by
    unfold CTable.AddRow
    rw [if_neg hne]
    rfl
  unfold listRow
  rw [hadd, hset R _ _ _ 0 i0 (by decide), hset R _ _ _ 1 i1 (by decide),
    hset R _ _ _ 2 i2 (by decide), hset R _ _ _ 3 i3 (by decide)]
  rfl

theorem foldl_listRow (es : List Entry) : ∀ R : List (List CString),
    es.foldl listRow ⟨["Channel".toList, "Nickname".toList, "Hits".toList, "Message".toList], R⟩
      = ⟨["Channel".toList, "Nickname".toList, "Hits".toList, "Message".toList],
          R ++ es.map (fun e => [e.chanPattern, e.nickPattern, ofULong e.hits, e.textPattern])⟩ := by
  induction es with
  | nil => intro R; simp
  | cons e es ih =>
    intro R
    rw [List.foldl_cons, listRow_step, ih]
    simp

theorem listTable_eq (es : List Entry) :
    listTable es
      = ⟨["Channel".toList, "Nickname".toList, "Hits".toList, "Message".toList],
          es.map (fun e => [e.chanPattern, e.nickPattern, ofULong e.hits, e.textPattern])⟩ := by
  have hcols : ((((CTable.mk [] []).AddColumn "Channel".toList).AddColumn
      "Nickname".toList).AddColumn "Hits".toList).AddColumn "Message".toList
      = ⟨["Channel".toList, "Nickname".toList, "Hits".toList, "Message".toList], []⟩ := by
    decide
  unfold listTable
  simp only [hcols]
  rw [foldl_listRow]
  simp

/-- C18. `OnListFilters` leaves the entries as they are. For an empty vector it reports
the text `No filters` (the words "no filters", capitalised) and no table; otherwise it
reports a table with the columns Channel, Nickname, Hits, Message and exactly one row
for each entry, in vector order, holding the entry's channel pattern, nick pattern, hit
count in decimal digits and text pattern. -/
theorem OnListFilters_report (m : CMyFilter) :
    (OnListFilters m).1.entries = m.entries
    ∧ (m.entries = [] → (OnListFilters m).2 = Reply.text "No filters".toList)
    ∧ AsLower "No filters".toList = "no filters".toList
    ∧ (m.entries ≠ [] → (OnListFilters m).2
        = Reply.table ⟨["Channel".toList, "Nickname".toList, "Hits".toList, "Message".toList],
            m.entries.map (fun e =>
              [e.chanPattern, e.nickPattern, ofULong e.hits, e.textPattern])⟩)
    ∧ (∀ e ∈ m.entries, (∀ c ∈ ofULong e.hits, isdigit c = true)
        ∧ decimalValue (ofULong e.hits) = e.hits) := by
  refine ⟨?_, ?_, by decide, ?_, fun e _ => ⟨(ofULong_decimal e.hits).1,
    (ofULong_decimal e.hits).2.1⟩⟩
  · unfold OnListFilters
    split <;> rfl
  · intro h
    unfold OnListFilters
    rw [if_pos h]
  · intro h
    unfold OnListFilters
    rw [if_neg h, listTable_eq]

theorem tokenStart_suffix (n : Nat) : ∀ s : CString, tokenStart n s <:+ s := by
  induction n with
  | zero => intro s; exact List.suffix_refl _
  | succ n ih =>
    intro s
    have h1 := List.dropWhile_suffix (l := s) (fun c => c != ' ')
    revert h1
    simp only [tokenStart]
    cases hd : s.dropWhile (fun c => c != ' ') with
    | nil => intro _; exact List.nil_suffix
    | cons r rest =>
      intro h1
      exact (ih _).trans ((List.dropWhile_suffix _).trans h1)

theorem Token_rest_mem (n : Nat) (line : CString) :
    (∀ c ∈ Token n true line, c ∈ line) ∧ (Token n true line).head? ≠ some ' ' := by
  have hT : Token n true line = tokenStart n (line.dropWhile (fun c => c == ' ')) := by
    simp [Token]
  rw [hT]
  refine ⟨?_, (tokenStart_spec n _ (head?_dropWhile_space line)).1⟩
  intro c hc
  exact ((tokenStart_suffix n _).trans (List.dropWhile_suffix _)).subset hc

theorem Token_word_props (n : Nat) (line : CString) (hn : n < (spaceTokens line).length) :
    Token n false line ≠ [] ∧ (∀ c ∈ Token n false line, c ≠ ' ' ∧ c ∈ line) := by
  obtain ⟨a, _, _, d⟩ := tokenStart_spec n _ (head?_dropWhile_space line)
  rw [spaceTokens_dropWhile] at d
  obtain ⟨hne, _⟩ := d hn
  have hT : Token n false line
      = (tokenStart n (line.dropWhile (fun c => c == ' '))).takeWhile (fun c => c != ' ') := by
    simp [Token]
  rw [hT]
  refine ⟨takeWhile_nonspace_ne_nil _ hne a, ?_⟩
  intro c hc
  refine ⟨takeWhile_nonspace_all _ c hc, ?_⟩
  exact ((tokenStart_suffix n _).trans (List.dropWhile_suffix _)).subset
    ((List.takeWhile_prefix _).subset hc)

theorem added_entry_storable (line : CString) (h3 : 3 ≤ (spaceTokens line).length)
    (hch : ∀ c ∈ line, c ≠ '\n' ∧ c ≠ '\x00') :
    (Entry.mk (Token 1 false line) (Token 2 false line) (Token 3 true line) 0).storable := by
  obtain ⟨a1, b1⟩ := Token_word_props 1 line (by omega)
  obtain ⟨a2, b2⟩ := Token_word_props 2 line (by omega)
  obtain ⟨a3, b3⟩ := Token_rest_mem 3 line
  refine ⟨a1, a2, ?_, ?_, ?_, b3, by norm_num⟩
  · intro c hc
    exact ⟨(b1 c hc).1, (hch c (b1 c hc).2).1, (hch c (b1 c hc).2).2⟩
  · intro c hc
    exact ⟨(b2 c hc).1, (hch c (b2 c hc).2).1, (hch c (b2 c hc).2).2⟩
  · intro c hc
    exact hch c (a3 c hc)

theorem foldl_add_entries (lines : List CString) : ∀ m : CMyFilter,
    (lines.foldl (fun m line => (OnAddFilter line m).1) m).entries
      = m.entries ++ lines.map (fun line =>
          Entry.mk (Token 1 false line) (Token 2 false line) (Token 3 true line) 0) := by
  induction lines with
  | nil => intro m; simp
  | cons l lines ih =>
    intro m
    rw [List.foldl_cons, ih]
    simp [OnAddFilter, Save]

theorem load_savedBlob (entries : List Entry) (h : ∀ e ∈ entries, e.storable) :
    (Split (savedBlob entries)).map Entry.deserialize = entries := by
  have hlines : Split (savedBlob entries) = entries.map Entry.serialize := by
    unfold savedBlob
    apply Split_Join
    · intro l hl
      obtain ⟨e, he, rfl⟩ := List.mem_map.mp hl
      exact (serialize_chars e (h e he)).1
    · intro l hl
      obtain ⟨e, he, rfl⟩ := List.mem_map.mp hl
      exact (serialize_chars e (h e he)).2
  rw [hlines, List.map_map]
  conv_rhs => rw [← List.map_id entries]
  apply List.map_congr_left
  intro e he
  exact deserialize_serialize e (h e he)

/-- C19 (amended). Restart safety of added filters: for a vector built only by `add`
commands whose command lines hold no newline and no NUL char and supply at least a
channel token and a nick token (text optional, spaces inside it allowed), saving the
vector and loading the stored blob into an empty vector gives back the same entries,
with the same patterns and hit counts; after the last `add` the stored value already is
that blob. -/
theorem add_then_restart (lines : List CString) (stored : Option CString)
    (h : ∀ l ∈ lines, 3 ≤ (spaceTokens l).length ∧ ∀ c ∈ l, c ≠ '\n' ∧ c ≠ '\x00') :
    (OnLoad ⟨[], (Save (addAll lines stored)).filters⟩).entries = (addAll lines stored).entries
    ∧ (lines ≠ [] →
        (OnLoad ⟨[], (addAll lines stored).filters⟩).entries = (addAll lines stored).entries) := by
  have hent : (addAll lines stored).entries = lines.map (fun line =>
      Entry.mk (Token 1 false line) (Token 2 false line) (Token 3 true line) 0) := by
    unfold addAll
    rw [foldl_add_entries]
    rfl
  have hst : ∀ e ∈ (addAll lines stored).entries, e.storable := by
    intro e he
    rw [hent] at he
    obtain ⟨l, hl, rfl⟩ := List.mem_map.mp he
    exact added_entry_storable l (h l hl).1 (h l hl).2
  have hload : (OnLoad ⟨[], (Save (addAll lines stored)).filters⟩).entries
      = (addAll lines stored).entries := by
    simp only [OnLoad, (Save_filters _).1, List.nil_append]
    exact load_savedBlob _ hst
  refine ⟨hload, ?_⟩
  intro hne
  have hsaved : (addAll lines stored).filters = (Save (addAll lines stored)).filters := by
    unfold addAll
    obtain ⟨l, rest, hl⟩ : ∃ l rest, lines = rest ++ [l] := by
      rcases List.eq_nil_or_concat lines with h0 | ⟨rest, l, h1⟩
      · exact absurd h0 hne
      · exact ⟨l, rest, by rw [h1, List.concat_eq_append]⟩
    rw [hl, List.foldl_append]
    rfl
  rw [hsaved]
  exact hload

/-- C19, witness: two `add` commands, the first with a text of three words, the second
without a text. -/
theorem add_then_restart_witness :
    (OnLoad ⟨[], (Save (addAll ["add #a nick1 hello big world".toList,
        "add #b* *".toList] none)).filters⟩).entries
      = [⟨"#a".toList, "nick1".toList, "hello big world".toList, 0⟩,
          ⟨"#b*".toList, "*".toList, [], 0⟩] :=
  ((add_then_restart ["add #a nick1 hello big world".toList, "add #b* *".toList] none
    (by decide)).1).trans (by decide)

/-- C19, counterexample: the line `add #c n a`, NUL, `b` holds no newline and has a
channel and a nick token; the added text pattern is `a`, NUL, `b`, and after saving and
loading it is `a`: the load reads the stored blob up to the NUL only. -/
theorem add_then_restart_nul :
    (addAll [['a', 'd', 'd', ' ', '#', 'c', ' ', 'n', ' ', 'a', '\x00', 'b']] none).entries
      = [⟨"#c".toList, "n".toList, ['a', '\x00', 'b'], 0⟩]
    ∧ (OnLoad ⟨[], (Save (addAll
        [['a', 'd', 'd', ' ', '#', 'c', ' ', 'n', ' ', 'a', '\x00', 'b']] none)).filters⟩).entries
      = [⟨"#c".toList, "n".toList, "a".toList, 0⟩]
    ∧ (OnLoad ⟨[], (Save (addAll
        [['a', 'd', 'd', ' ', '#', 'c', ' ', 'n', ' ', 'a', '\x00', 'b']] none)).filters⟩).entries
      ≠ (addAll [['a', 'd', 'd', ' ', '#', 'c', ' ', 'n', ' ', 'a', '\x00', 'b']] none).entries := by
  decide

end ZncFilter
